import Mathlib

/-!
Verification of the sequence/structure remapping utilities
(`scripts/seq_utils.py`) of the EVEscape repository.

The Python module is shallowly embedded below.  Conventions:

* Python strings are `List Char`; pandas DataFrames are Lean lists of
  structures (one structure type per column layout); `NaN` / missing
  values are `Option` fields.
* A Python function that can raise is embedded as `Except PyErr _`
  (or `Option _`); the error value records which exception the source
  raises at that point.
* Calls into external libraries (Biopython, evcouplings, pandas) are
  embedded according to the documented behaviour of those libraries;
  each such embedding carries a doc comment naming the library routine
  it models.  The Smith-Waterman core of Biopython's
  `pairwise2.align.localds` is kept abstract: the functions that use it
  take the alignment routine as an explicit argument `localds`, so all
  theorems quantify over every possible alignment result.  The one piece
  of `pairwise2` behaviour that is modelled concretely is its guard
  returning an empty alignment list when either input sequence is empty.
-/

/-- Python exceptions that the embedded code can raise. -/
inductive PyErr where
  | keyError
  | indexError
  | attributeError
  | valueError
  | typeError
deriving DecidableEq, Repr

/-! ### FASTA I/O (`fa_to_pd`, `write_fa`) -/

/-- Split a character stream at newline characters; a stream with `k`
newlines yields `k + 1` (possibly empty) parts, newlines removed. -/
def splitOnNl : List Char → List (List Char)
  | [] => [[]]
  | c :: rest =>
    match splitOnNl rest with
    | [] => [[]]
    | p :: ps => if c = '\n' then [] :: p :: ps else (c :: p) :: ps

/-- Line iteration of a Python text file: like `splitOnNl`, but a trailing
newline does not produce a final empty line (Python yields no line after
the last newline). -/
def pyLines (s : List Char) : List (List Char) :=
  match splitOnNl s with
  | ps => if ps.getLast? = some [] then ps.dropLast else ps

/-- Python `str.rstrip()`: remove trailing whitespace. -/
def rstrip (l : List Char) : List Char :=
  (l.reverse.dropWhile Char.isWhitespace).reverse

/-- One row of the DataFrame built by `fa_to_pd`: a header (the Python
reader starts with `current_id = None`, hence the `Option`) and a
sequence. -/
structure FaRecord where
  seq_id : Option (List Char)
  seq : List Char
deriving DecidableEq, Repr

/-- Models the external generator `evcouplings.align.alignment.read_fasta`
that `fa_to_pd` iterates: a line starting with the record marker starts a
new record (yielding the previous one, if any); a line starting with a
semicolon is skipped as a comment; any other line is right-stripped and
appended to the current sequence; after the last line the current record
is yielded unconditionally. -/
def read_fasta_lines : List (List Char) → Option (List Char) → List Char → List FaRecord
  | [], cid, cseq => [⟨cid, cseq⟩]
  | line :: rest, cid, cseq =>
    if line.head? = some '>' then
      (match cid with
       | some i => [⟨some i, cseq⟩]
       | none => []) ++ read_fasta_lines rest (some ((rstrip line).drop 1)) []
    else if line.head? = some ';' then
      read_fasta_lines rest cid cseq
    else
      read_fasta_lines rest cid (cseq ++ rstrip line)

/-- Embeds `fa_to_pd`: read a FASTA file (given here as its character
contents) into a table of (header, sequence) rows. -/
def fa_to_pd (contents : List Char) : List FaRecord :=
  read_fasta_lines (pyLines contents) none []

/-- Embeds `write_fa`: write each table row as a header line (prefixed
with the record marker) followed by one sequence line.  The result is
the character contents of the written file. -/
def write_fa (fa_table : List (List Char × List Char)) : List Char :=
  fa_table.flatMap (fun r => '>' :: r.1 ++ '\n' :: r.2 ++ ['\n'])

/-! ### Alphanumeric index decoding (`alphanumeric_index_to_numeric_index`) -/

/-- Decimal value of a digit string, as Python `int` builds it from a
string of digit characters. -/
def strToNat (s : List Char) : Nat :=
  s.foldl (fun a c => a * 10 + (c.toNat - '0'.toNat)) 0

/-- Round a rational to the nearest integer, ties to even (the rounding
of an IEEE-754 significand). -/
def roundHalfEven (x : ℚ) : ℤ :=
  if x - ⌊x⌋ < 1/2 then ⌊x⌋
  else if 1/2 < x - ⌊x⌋ then ⌊x⌋ + 1
  else if ⌊x⌋ % 2 = 0 then ⌊x⌋ else ⌊x⌋ + 1

/-- Floor of the base-2 logarithm of a positive rational, computed from
the bit lengths of numerator and denominator. -/
def floorLog2 (q : ℚ) : ℤ :=
  if (2:ℚ) ^ ((q.num.natAbs.log2 : ℤ) - (q.den.log2 : ℤ)) ≤ q
  then (q.num.natAbs.log2 : ℤ) - (q.den.log2 : ℤ)
  else (q.num.natAbs.log2 : ℤ) - (q.den.log2 : ℤ) - 1

/-- The IEEE-754 binary64 (Python `float`) value nearest to a
nonnegative rational, ties to even, returned as the exact rational it
denotes: the value is scaled into [2^52, 2^53) and its significand
rounded to 53 bits.  Total; the decoder only feeds it values that are
zero or at least 1/100, so the subnormal range (below 2^-1022) is never
exercised, and its additions never overflow to infinity (the overflow
of int-to-float conversion is `intToFloat`'s guard). -/
def roundDouble (q : ℚ) : ℚ :=
  if q ≤ 0 then 0
  else (roundHalfEven (q * (2:ℚ) ^ ((52:ℤ) - floorLog2 q)) : ℚ) *
    (2:ℚ) ^ (floorLog2 q - (52:ℤ))

/-- Python int-to-float conversion, as performed by `int + float`: the
nearest binary64 value, or `none` (`OverflowError`) when rounding
reaches 2^1024 (which round-to-nearest-even does exactly when the
integer is at least 2^1024 - 2^970). -/
def intToFloat (v : ℕ) : Option ℚ :=
  if (2:ℚ) ^ (1024:ℤ) ≤ roundDouble v then none else some (roundDouble v)

/-- The default-argument dictionary `alpha_to_numeric`, mapping the
single-letter strings "A".."Z" to (1+index)/100; lookup of any other
string fails (Python `KeyError`).  The dictionary values are Python
floats — `(i+1)/100` is true division of two small ints, i.e. the
binary64 value nearest to the exact quotient — embedded as the exact
rationals those doubles denote. -/
def alpha_to_numeric : List Char → Option ℚ
  | [c] => if 'A' ≤ c ∧ c ≤ 'Z'
      then some (roundDouble ((c.toNat - 'A'.toNat + 1 : ℕ) / 100)) else none
  | _ => none

/-- Embeds `alphanumeric_index_to_numeric_index`.  The digit characters
and the alphabetic characters of the input are collected separately.
With no alphabetic character the result is the exact Python int of the
digits.  With alphabetic characters present, the source computes
`int(digits) + table[letters.upper()]`, an int-plus-float addition:
the int is converted to binary64 (`intToFloat`; `OverflowError` for
huge values) and added to the table's double with one more binary64
rounding.  Every value is carried as the exact rational it denotes,
which is faithful to Python's exact mixed int/float comparisons.
`none` models the exceptions the source raises, in evaluation order:
`TypeError` from `int(None)` when there is no digit, `KeyError` when
the concatenated letters are not a single character A-Z, and
`OverflowError` from the int-to-float conversion. -/
def alphanumeric_index_to_numeric_index (n : List Char) : Option ℚ :=
  let digits := n.filter (fun c => c.isDigit)
  let alphas := n.filter (fun c => c.isAlpha)
  if alphas ≠ [] then
    if digits = [] then none
    else
      match alpha_to_numeric (alphas.map Char.toUpper) with
      | some frac =>
        match intToFloat (strToNat digits) with
        | some x => some (roundDouble (x + frac))
        | none => none
      | none => none
  else if digits = [] then none
  else some ((strToNat digits : ℚ))

/-! ### Pairwise alignment (`pairwise_align`, `remap_to_target_seq`) -/

/-- Gap characters recognised by the index-mapping routine. -/
def isGap (c : Char) : Bool := c = '-' || c = '.'

/-- One row of the correspondence table produced by the external
`evcouplings.compare.mapping.map_indices`: position and symbol in each
of the two aligned sequences; a gap leaves the position undefined. -/
structure MapRow where
  i : Option Nat
  A_i : Char
  j : Option Nat
  A_j : Char
deriving DecidableEq, Repr

/-- Models the external `evcouplings.compare.mapping.map_indices` loop:
walk the two gapped strings in lockstep (`zip` truncates at the shorter),
incrementing each sequence's ungapped position counter only at its
non-gap columns, and emit one row per column; a gap leaves that side's
index undefined.  `pos_i`, `pos_j` are the counters, started at
`start - 1 = 0` by the caller. -/
def map_indices (pos_i pos_j : Nat) : List Char → List Char → List MapRow
  | a :: as_, b :: bs =>
    let pi2 := if isGap a then pos_i else pos_i + 1
    let ii : Option Nat := if isGap a then none else some (pos_i + 1)
    let pj2 := if isGap b then pos_j else pos_j + 1
    let jj : Option Nat := if isGap b then none else some (pos_j + 1)
    ⟨ii, a, jj, b⟩ :: map_indices pi2 pj2 as_ bs
  | _, _ => []

/-- Embeds `pairwise_align`.  The Smith-Waterman computation of
Biopython `pairwise2.align.localds` is abstracted as the argument
`localds`, returning the list of top-scoring alignments; the guard in
Biopython's `pairwise2._align` returning the empty list when either
input sequence is empty is modelled concretely.  The source then indexes
`alignments[0]`, which raises `IndexError` on an empty list. -/
def pairwise_align (localds : List Char → List Char → List (List Char × List Char))
    (seq1 seq2 : List Char) : Except PyErr (List Char × List Char) :=
  match (if seq1 = [] ∨ seq2 = [] then [] else localds seq1 seq2) with
  | [] => .error .indexError
  | a :: _ => .ok a

/-- Embeds `remap_to_target_seq`: align the new sequence against the
target and build the correspondence table with both counters started
at 1. -/
def remap_to_target_seq (localds : List Char → List Char → List (List Char × List Char))
    (new_seq target_seq : List Char) : Except PyErr (List MapRow) :=
  match pairwise_align localds new_seq target_seq with
  | .error e => .error e
  | .ok a => .ok (map_indices 0 0 a.1 a.2)

/-! ### Structure extraction (`remap_pdb_seq_to_target_seq`, part 1) -/

/-- Decimal rendering of an integer, as Python `str`. -/
def intStr (z : Int) : List Char := (toString z).toList

/-- One residue as produced by Biopython's PDB parser iteration
`structure.get_residues()`: the `is_aa` verdict, the three-letter
residue name, the numeric residue id, the insertion code (already
whitespace-stripped, as the source applies `.strip()`), and the chain
id.  Parsing of the PDB file itself is abstracted: theorems quantify
over every possible residue list. -/
structure RawResidue where
  is_aa : Bool
  resname : List Char
  resseq : Int
  icode : List Char
  chain : List Char
deriving DecidableEq, Repr

/-- Models the standard lookup table
`Bio.Data.SCOPData.protein_letters_3to1` on the twenty canonical
amino-acid codes; any code outside the table is a `KeyError` (`none`).
(The real table also maps many modified-residue codes; only absence
from the table is relevant to the claims, so the canonical core is
embedded.) -/
def protein_letters_3to1 : List Char → Option Char
  | ['A', 'L', 'A'] => some 'A'
  | ['A', 'R', 'G'] => some 'R'
  | ['A', 'S', 'N'] => some 'N'
  | ['A', 'S', 'P'] => some 'D'
  | ['C', 'Y', 'S'] => some 'C'
  | ['G', 'L', 'N'] => some 'Q'
  | ['G', 'L', 'U'] => some 'E'
  | ['G', 'L', 'Y'] => some 'G'
  | ['H', 'I', 'S'] => some 'H'
  | ['I', 'L', 'E'] => some 'I'
  | ['L', 'E', 'U'] => some 'L'
  | ['L', 'Y', 'S'] => some 'K'
  | ['M', 'E', 'T'] => some 'M'
  | ['P', 'H', 'E'] => some 'F'
  | ['P', 'R', 'O'] => some 'P'
  | ['S', 'E', 'R'] => some 'S'
  | ['T', 'H', 'R'] => some 'T'
  | ['T', 'R', 'P'] => some 'W'
  | ['T', 'Y', 'R'] => some 'Y'
  | ['V', 'A', 'L'] => some 'V'
  | _ => none

/-- One row of the residue table `resis` built by the extraction loop of
`remap_pdb_seq_to_target_seq` (before the `pdb_i` column is added). -/
structure ResRow where
  pdb_res : Char
  pdb_position : List Char
  chain : List Char
  ind : Nat
deriving DecidableEq, Repr

/-- The extraction loop of `remap_pdb_seq_to_target_seq`, carrying the
`enumerate` counter `i`: keep amino-acid residues, translating the
three-letter code (a code missing from the table raises `KeyError`,
so no partial table is returned), and record the position label
(residue number concatenated with the stripped insertion code), the
chain and the counter. -/
def extract_residues_from (i : Nat) : List RawResidue → Except PyErr (List ResRow)
  | [] => .ok []
  | r :: rs =>
    if r.is_aa then
      match protein_letters_3to1 r.resname with
      | none => .error .keyError
      | some c =>
        match extract_residues_from (i + 1) rs with
        | .error e => .error e
        | .ok rest => .ok (⟨c, intStr r.resseq ++ r.icode, r.chain, i⟩ :: rest)
    else
      extract_residues_from (i + 1) rs

/-- The extraction loop started at counter 0. -/
def extract_residues (rs : List RawResidue) : Except PyErr (List ResRow) :=
  extract_residues_from 0 rs

/-- A residue row extended with the derived chain-local index `pdb_i`. -/
structure ResIRow where
  pdb_res : Char
  pdb_position : List Char
  chain : List Char
  ind : Nat
  pdb_i : Nat
deriving DecidableEq, Repr

/-- Worker for the `pdb_i` assignment, threading the per-chain counters
as a function from chain id to the count seen so far. -/
def assign_pdb_i_aux (cnt : List Char → Nat) : List ResRow → List ResIRow
  | [] => []
  | r :: rs =>
    ⟨r.pdb_res, r.pdb_position, r.chain, r.ind, cnt r.chain + 1⟩ ::
      assign_pdb_i_aux (fun c => if c = r.chain then cnt r.chain + 1 else cnt c) rs

/-- Embeds the line
`resis['pdb_i'] = resis.sort_values(['chain','ind']).groupby('chain').cumcount() + 1`.
Because the `ind` column is strictly increasing in row order (it is the
`enumerate` counter), the stable sort by (chain, ind) keeps each chain's
rows in their original relative order, so the cumcount a row receives
(realigned to the original index) is exactly the number of earlier rows
of the same chain; that is what `assign_pdb_i_aux` computes. -/
def assign_pdb_i (rows : List ResRow) : List ResIRow :=
  assign_pdb_i_aux (fun _ => 0) rows

/-! ### Per-chain correspondence tables and the final join
(`remap_pdb_seq_to_target_seq`, part 2) -/

/-- One row of a per-chain correspondence table after the `rename` and
the `chain` column assignment.  The indices stay `Option`-valued until
the `dropna`-style filters; the subsequent `astype(int)` only changes
the column dtype (every surviving value is already an integer). -/
structure ChainMapRow where
  pdb_i : Option Nat
  pdb_res : Char
  target_i : Option Nat
  target_res : Char
  chain : List Char
deriving DecidableEq, Repr

/-- The per-chain body of the loop in `remap_pdb_seq_to_target_seq`:
build the chain sequence (the chain's residues are already in `ind`
order, so `sort_values(['ind'])` is the identity), remap it to the
target sequence, rename the columns, attach the chain id, and drop the
rows where either index is missing. -/
def chain_map_table (localds : List Char → List Char → List (List Char × List Char))
    (resis : List ResIRow) (target_seq : List Char) (c : List Char) :
    Except PyErr (List ChainMapRow) :=
  match remap_to_target_seq localds
      ((resis.filter (fun r => r.chain == c)).map (fun r => r.pdb_res)) target_seq with
  | .error e => .error e
  | .ok mt =>
    .ok (((mt.map (fun m => ChainMapRow.mk m.i m.A_i m.j m.A_j c)).filter
      (fun m => !m.pdb_i.isNone)).filter (fun m => !m.target_i.isNone))

/-- The chain loop of `remap_pdb_seq_to_target_seq`: one table per
requested chain, the first raised exception propagating. -/
def chain_tables (localds : List Char → List Char → List (List Char × List Char))
    (resis : List ResIRow) (target_seq : List Char) :
    List (List Char) → Except PyErr (List (List ChainMapRow))
  | [] => .ok []
  | c :: cs =>
    match chain_map_table localds resis target_seq c with
    | .error e => .error e
    | .ok t =>
      match chain_tables localds resis target_seq cs with
      | .error e => .error e
      | .ok ts => .ok (t :: ts)

/-- One row of the final table of `remap_pdb_seq_to_target_seq`: the
correspondence columns plus the `pdb_position` column recovered by the
left join with `resis` (missing when the join finds no match). -/
structure RemapRow where
  pdb_i : Option Nat
  pdb_res : Char
  target_i : Option Nat
  target_res : Char
  chain : List Char
  pdb_position : Option (List Char)
deriving DecidableEq, Repr

/-- Embeds `map_table.merge(resis, how='left', on=['chain','pdb_i','pdb_res'])`
(after `resis` dropped its `ind` column): every left row is kept, paired
with each right row of equal key in right-table order, or with a missing
`pdb_position` when no right row matches. -/
def merge_left (mt : List ChainMapRow) (resis : List ResIRow) : List RemapRow :=
  mt.flatMap (fun m =>
    match resis.filter (fun r =>
      r.chain == m.chain && some r.pdb_i == m.pdb_i && r.pdb_res == m.pdb_res) with
    | [] => [⟨m.pdb_i, m.pdb_res, m.target_i, m.target_res, m.chain, none⟩]
    | r0 :: rs =>
      (r0 :: rs).map (fun r => ⟨m.pdb_i, m.pdb_res, m.target_i, m.target_res, m.chain,
        some r.pdb_position⟩))

/-- Embeds `remap_pdb_seq_to_target_seq`.  The PDB file is abstracted as
the list of residues its parse yields; the target FASTA file is given as
its character contents, of which the first record's sequence is taken
(as `fa_to_pd(...).Sequence.values[0]`; an empty frame would raise
`IndexError`).  An all-filtered-out extraction gives `pd.DataFrame([])`,
whose missing `chain` column raises `AttributeError`; an empty chain
list reaches `pd.concat([])`, which raises `ValueError`. -/
def remap_pdb_seq_to_target_seq
    (localds : List Char → List Char → List (List Char × List Char))
    (residues : List RawResidue) (chain_list : List (List Char))
    (targetContents : List Char) : Except PyErr (List RemapRow) :=
  match (fa_to_pd targetContents).head? with
  | none => .error .indexError
  | some rec0 =>
    match extract_residues residues with
    | .error e => .error e
    | .ok rows =>
      if rows = [] then .error .attributeError
      else
        match chain_tables localds
            (assign_pdb_i (rows.filter (fun r => chain_list.contains r.chain)))
            rec0.seq chain_list with
        | .error e => .error e
        | .ok ts =>
          if chain_list = [] then .error .valueError
          else .ok (merge_left ts.flatten
            (assign_pdb_i (rows.filter (fun r => chain_list.contains r.chain))))

/-! ### Mutation enumeration (`make_mut_table`) -/

/-- One row of the single-mutation table.  The source column is named
`mut`; that is a reserved word in Lean, so the field is `mutant`. -/
structure MutRow where
  i : Nat
  wt : Char
  mutant : Char
deriving DecidableEq, Repr

/-- The nested loop of `make_mut_table`, carrying the `enumerate`
counter: for each position, one row per alphabet symbol whose upper-case
differs from the upper-cased wild type, in alphabet order. -/
def mut_rows_from (alphabet : List Char) (i : Nat) : List Char → List MutRow
  | [] => []
  | old :: rest =>
    ((alphabet.filter (fun new => new.toUpper != old.toUpper)).map
      (fun new => MutRow.mk (i + 1) old.toUpper new.toUpper)) ++
      mut_rows_from alphabet (i + 1) rest

/-- Embeds `make_mut_table`: the sequence is the first record of the
given FASTA file (`fa_to_pd(seqfile).Sequence[0]`; `fa_to_pd` always
yields at least one row, so the `none` branch is unreachable). -/
def make_mut_table (seqfileContents : List Char) (alphabet : List Char) : List MutRow :=
  match (fa_to_pd seqfileContents).head? with
  | some r => mut_rows_from alphabet 0 r.seq
  | none => []

/-! ### Annotation-table remapping (`remap_struct_df_to_target_seq`) -/

/-- One row of the structure-derived annotation table (e.g. DSSP
output): chain, its own position column `i`, the wild-type residue `wt`,
and the remaining annotation columns abstracted as an opaque payload. -/
structure StructRow where
  chain : List Char
  i : Int
  wt : Char
  payload : List Char
deriving DecidableEq, Repr

/-- One row of a mapping table as consumed by
`remap_struct_df_to_target_seq` (the claims quantify over arbitrary
mapping tables with the joined-on and target columns). -/
structure MapTableRow where
  chain : List Char
  pdb_i : Nat
  pdb_res : Char
  target_i : Nat
  target_res : Char
deriving DecidableEq, Repr

/-- One row of the output of `remap_struct_df_to_target_seq`, after the
renames (`i` to `pdb_numbering`, `wt` to `pdb_res`, then `target_i` to
`i` and `target_res` to `wt`) and the drop of the helper `pdb_i`
column; target-derived fields are missing for unmatched rows. -/
structure StructOutRow where
  chain : List Char
  pdb_numbering : Int
  pdb_res : Char
  payload : List Char
  i : Option Nat
  wt : Option Char
deriving DecidableEq, Repr

/-- Embeds
`struct_df.sort_values(['chain','i']).groupby('chain').cumcount() + 1`
realigned to the original index: each row is paired with one plus the
number of rows of the same chain that precede it in the (chain, `i`)
sort (ties broken by original position). -/
def struct_assign (rows : List StructRow) : List (StructRow × Nat) :=
  rows.enum.map (fun p =>
    (p.2, 1 + (rows.enum.filter (fun q =>
      q.2.chain == p.2.chain &&
        (decide (q.2.i < p.2.i) || (q.2.i == p.2.i && decide (q.1 < p.1))))).length))

/-- Embeds `remap_struct_df_to_target_seq`: filter to the requested
chains, assign the chain-local index, rename the original position and
residue columns, left-join onto the mapping table on
(chain, `pdb_i`, `pdb_res`), drop the helper column and rename the
target columns.  Unmatched rows keep missing target fields. -/
def remap_struct_df_to_target_seq (struct_df : List StructRow)
    (chainlist : List (List Char)) (map_table : List MapTableRow) :
    List StructOutRow :=
  (struct_assign (struct_df.filter (fun r => chainlist.contains r.chain))).flatMap (fun p =>
    match map_table.filter (fun m =>
      m.chain == p.1.chain && m.pdb_i == p.2 && m.pdb_res == p.1.wt) with
    | [] => [⟨p.1.chain, p.1.i, p.1.wt, p.1.payload, none, none⟩]
    | m0 :: ms =>
      (m0 :: ms).map (fun m => ⟨p.1.chain, p.1.i, p.1.wt, p.1.payload,
        some m.target_i, some m.target_res⟩))

/-- Lines that `write_fa` produces, in order: a marker-prefixed header
line and a sequence line per record. -/
def linesOf (rows : List (List Char × List Char)) : List (List Char) :=
  rows.flatMap (fun r => [('>' :: r.1), r.2])

deriving instance DecidableEq for Except

/-! ### Character-class helper lemmas -/

theorem char_le_iff_toNat {a b : Char} : a ≤ b ↔ a.toNat ≤ b.toNat := Iff.rfl

theorem char_lt_iff_toNat {a b : Char} : a < b ↔ a.toNat < b.toNat := Iff.rfl

theorem char_toNat_ofNat_of_lt {m : Nat} (h : m < 55296) : (Char.ofNat m).toNat = m := by
  have hv : m.isValidChar := Or.inl h
  simp [Char.ofNat, hv, Char.ofNatAux, Char.toNat]
  rfl

theorem char_isDigit_iff {c : Char} : c.isDigit = true ↔ 48 ≤ c.toNat ∧ c.toNat ≤ 57 := by
  simp [Char.isDigit, Char.le_def, UInt32.le_def]
  exact Iff.rfl

theorem char_isLower_iff {c : Char} : c.isLower = true ↔ 97 ≤ c.toNat ∧ c.toNat ≤ 122 := by
  simp [Char.isLower]
  exact Iff.rfl

theorem char_isUpper_iff {c : Char} : c.isUpper = true ↔ 65 ≤ c.toNat ∧ c.toNat ≤ 90 := by
  simp [Char.isUpper]
  exact Iff.rfl

theorem char_isAlpha_iff {c : Char} : c.isAlpha = true ↔
    (65 ≤ c.toNat ∧ c.toNat ≤ 90) ∨ (97 ≤ c.toNat ∧ c.toNat ≤ 122) := by
  simp [Char.isAlpha, char_isUpper_iff, char_isLower_iff]

theorem char_isDigit_not_isAlpha {c : Char} (h : c.isDigit = true) : c.isAlpha = false := by
  rw [char_isDigit_iff] at h
  by_contra hc
  rw [Bool.not_eq_false, char_isAlpha_iff] at hc
  omega

theorem char_toUpper_toNat (c : Char) :
    c.toUpper.toNat = if 97 ≤ c.toNat ∧ c.toNat ≤ 122 then c.toNat - 32 else c.toNat := by
  unfold Char.toUpper
  by_cases h : 97 ≤ c.toNat ∧ c.toNat ≤ 122
  · rw [if_pos ⟨h.1, h.2⟩, if_pos h]
    exact char_toNat_ofNat_of_lt (by omega)
  · rw [if_neg, if_neg h]
    intro hc
    exact h ⟨hc.1, hc.2⟩

theorem char_toUpper_eq_self_of_not_lower {c : Char}
    (h : ¬(97 ≤ c.toNat ∧ c.toNat ≤ 122)) : c.toUpper = c := by
  unfold Char.toUpper
  rw [if_neg]
  intro hc
  exact h ⟨hc.1, hc.2⟩

theorem char_toUpper_of_upper {c : Char} (h1 : 'A' ≤ c) (h2 : c ≤ 'Z') : c.toUpper = c := by
  rw [char_le_iff_toNat] at h1 h2
  have e1 : ('A').toNat = 65 := by decide
  have e2 : ('Z').toNat = 90 := by decide
  rw [e1] at h1
  rw [e2] at h2
  exact char_toUpper_eq_self_of_not_lower (by omega)

theorem char_toUpper_upper_range {c : Char} (h : c.isAlpha = true) :
    65 ≤ c.toUpper.toNat ∧ c.toUpper.toNat ≤ 90 := by
  rw [char_isAlpha_iff] at h
  rw [char_toUpper_toNat]
  by_cases hl : 97 ≤ c.toNat ∧ c.toNat ≤ 122
  · rw [if_pos hl]
    omega
  · rw [if_neg hl]
    omega

theorem char_isDigit_toUpper (c : Char) : c.toUpper.isDigit = c.isDigit := by
  cases hb : c.isDigit with
  | true =>
    rw [char_isDigit_iff] at hb ⊢
    rw [char_toUpper_toNat, if_neg (by omega)]
    exact hb
  | false =>
    by_contra hc
    rw [Bool.not_eq_false, char_isDigit_iff, char_toUpper_toNat] at hc
    rw [Bool.eq_false_iff, ne_eq, char_isDigit_iff] at hb
    by_cases hl : 97 ≤ c.toNat ∧ c.toNat ≤ 122
    · rw [if_pos hl] at hc
      omega
    · rw [if_neg hl] at hc
      exact hb hc

theorem char_isAlpha_toUpper (c : Char) : c.toUpper.isAlpha = c.isAlpha := by
  cases hb : c.isAlpha with
  | true =>
    rw [char_isAlpha_iff]
    have := char_toUpper_upper_range hb
    omega
  | false =>
    by_contra hc
    rw [Bool.not_eq_false, char_isAlpha_iff, char_toUpper_toNat] at hc
    rw [Bool.eq_false_iff, ne_eq, char_isAlpha_iff] at hb
    by_cases hl : 97 ≤ c.toNat ∧ c.toNat ≤ 122
    · rw [if_pos hl] at hc
      exact hb (Or.inr hl)
    · rw [if_neg hl] at hc
      exact hb hc

theorem char_toUpper_toUpper (c : Char) : c.toUpper.toUpper = c.toUpper := by
  apply char_toUpper_eq_self_of_not_lower
  rw [char_toUpper_toNat]
  by_cases hl : 97 ≤ c.toNat ∧ c.toNat ≤ 122
  · rw [if_pos hl]
    omega
  · rw [if_neg hl]
    exact hl

theorem char_toUpper_of_isDigit {c : Char} (h : c.isDigit = true) : c.toUpper = c := by
  rw [char_isDigit_iff] at h
  exact char_toUpper_eq_self_of_not_lower (by omega)

/-! ### Decoder lemmas -/

theorem filter_isDigit_all {s : List Char} (h : ∀ c ∈ s, c.isDigit = true) :
    s.filter (fun c => c.isDigit) = s :=
  List.filter_eq_self.mpr h

theorem filter_isAlpha_of_digits {s : List Char} (h : ∀ c ∈ s, c.isDigit = true) :
    s.filter (fun c => c.isAlpha) = [] := by
  rw [List.filter_eq_nil_iff]
  intro c hc
  rw [char_isDigit_not_isAlpha (h c hc)]
  exact Bool.false_ne_true

theorem decode_all_digits {s : List Char} (hne : s ≠ [])
    (h : ∀ c ∈ s, c.isDigit = true) :
    alphanumeric_index_to_numeric_index s = some ((strToNat s : ℚ)) := by
  unfold alphanumeric_index_to_numeric_index
  rw [filter_isDigit_all h, filter_isAlpha_of_digits h]
  simp [hne]

/-! ### Binary64 rounding lemmas -/

theorem roundHalfEven_intCast (n : ℤ) : roundHalfEven (n : ℚ) = n := by
  unfold roundHalfEven
  rw [Int.floor_intCast]
  rw [if_pos (show (n:ℚ) - n < 1/2 by norm_num)]

theorem roundHalfEven_abs (x : ℚ) : |(roundHalfEven x : ℚ) - x| ≤ 1/2 := by
  unfold roundHalfEven
  have h1 : (⌊x⌋ : ℚ) ≤ x := Int.floor_le x
  have h2 : x < ⌊x⌋ + 1 := Int.lt_floor_add_one x
  by_cases hlt : x - ⌊x⌋ < 1/2
  · rw [if_pos hlt, abs_le]
    constructor <;> linarith
  · rw [if_neg hlt]
    by_cases hgt : 1/2 < x - ⌊x⌋
    · rw [if_pos hgt, abs_le]
      push_cast
      constructor <;> linarith
    · rw [if_neg hgt]
      by_cases hev : ⌊x⌋ % 2 = 0
      · rw [if_pos hev, abs_le]
        constructor <;> linarith
      · rw [if_neg hev, abs_le]
        push_cast
        constructor <;> linarith

theorem roundHalfEven_ge_floor (x : ℚ) : ⌊x⌋ ≤ roundHalfEven x := by
  unfold roundHalfEven
  by_cases hlt : x - ⌊x⌋ < 1/2
  · rw [if_pos hlt]
  · rw [if_neg hlt]
    by_cases hgt : 1/2 < x - ⌊x⌋
    · rw [if_pos hgt]
      omega
    · rw [if_neg hgt]
      by_cases hev : ⌊x⌋ % 2 = 0
      · rw [if_pos hev]
      · rw [if_neg hev]
        omega

theorem roundHalfEven_small_add (n : ℤ) (t : ℚ) (h0 : 0 ≤ t) (ht : t < 1/2) :
    roundHalfEven ((n:ℚ) + t) = n := by
  have hf : ⌊(n:ℚ) + t⌋ = n := by
    rw [add_comm, Int.floor_add_int, Int.floor_eq_zero_iff.mpr ⟨h0, by linarith⟩, zero_add]
  unfold roundHalfEven
  rw [hf]
  rw [if_pos (show (n:ℚ) + t - n < 1/2 by linarith)]

theorem roundHalfEven_ge_of_half {x : ℚ} {n : ℤ} (hodd : n % 2 = 1)
    (hx : (n:ℚ) + 1/2 ≤ x) : n + 1 ≤ roundHalfEven x := by
  have hf : n ≤ ⌊x⌋ := Int.le_floor.mpr (by linarith)
  rcases eq_or_lt_of_le hf with heq | hlt
  · unfold roundHalfEven
    rw [← heq]
    rw [if_neg (show ¬(x - (n:ℚ) < 1/2) by linarith)]
    by_cases h2 : 1/2 < x - (n:ℚ)
    · rw [if_pos h2]
    · rw [if_neg h2, if_neg (by omega)]
  · have := roundHalfEven_ge_floor x
    omega

theorem floorLog2_spec (q : ℚ) (hq : 0 < q) :
    (2:ℚ) ^ (floorLog2 q) ≤ q ∧ q < (2:ℚ) ^ (floorLog2 q + 1) := by
  have hnum : 0 < q.num := Rat.num_pos.mpr hq
  have hnumne : q.num.natAbs ≠ 0 := by
    intro hc
    rw [Int.natAbs_eq_zero] at hc
    omega
  have hdenpos : (0:ℕ) < q.den := q.den_pos
  have hdq : (0:ℚ) < (q.den : ℚ) := by exact_mod_cast hdenpos
  have hqeq : q = (q.num.natAbs : ℚ) / (q.den : ℚ) := by
    conv_lhs => rw [← Rat.num_div_den q]
    rw [show ((q.num.natAbs : ℕ) : ℚ) = (((q.num.natAbs : ℕ) : ℤ) : ℚ) from
        (Int.cast_natCast _).symm,
      Int.natAbs_of_nonneg (le_of_lt hnum)]
  have key : ∀ a b : ℕ, 2 ^ a ≤ q.num.natAbs → q.num.natAbs < 2 ^ (a + 1) →
      2 ^ b ≤ q.den → q.den < 2 ^ (b + 1) →
      (2:ℚ) ^ a / (2:ℚ) ^ (b + 1) < q ∧ q < (2:ℚ) ^ (a + 1) / (2:ℚ) ^ b := by
    intro a b h1 h2 h3 h4
    constructor
    · rw [hqeq, div_lt_div_iff₀ (by positivity) hdq]
      have hnat : 2 ^ a * q.den < q.num.natAbs * 2 ^ (b + 1) := by
        calc 2 ^ a * q.den < 2 ^ a * 2 ^ (b + 1) :=
              mul_lt_mul_of_pos_left h4 (by positivity)
          _ ≤ q.num.natAbs * 2 ^ (b + 1) :=
              mul_le_mul_of_nonneg_right h1 (by positivity)
      exact_mod_cast hnat
    · rw [hqeq, div_lt_div_iff₀ hdq (by positivity)]
      have hnat : q.num.natAbs * 2 ^ b < 2 ^ (a + 1) * q.den := by
        calc q.num.natAbs * 2 ^ b < 2 ^ (a + 1) * 2 ^ b :=
              mul_lt_mul_of_pos_right h2 (by positivity)
          _ ≤ 2 ^ (a + 1) * q.den :=
              mul_le_mul_of_nonneg_left h3 (by positivity)
      exact_mod_cast hnat
  obtain ⟨hL, hU⟩ := key q.num.natAbs.log2 q.den.log2 (Nat.log2_self_le hnumne)
    Nat.lt_log2_self (Nat.log2_self_le (by omega)) Nat.lt_log2_self
  have hpow : ∀ (i j : ℕ), (2:ℚ) ^ ((i:ℤ) - (j:ℤ)) = (2:ℚ) ^ i / (2:ℚ) ^ j := by
    intro i j
    rw [zpow_sub₀ (by norm_num : (2:ℚ) ≠ 0), zpow_natCast, zpow_natCast]
  unfold floorLog2
  by_cases hif : (2:ℚ) ^ ((q.num.natAbs.log2 : ℤ) - (q.den.log2 : ℤ)) ≤ q
  · rw [if_pos hif]
    refine ⟨hif, ?_⟩
    have he : (q.num.natAbs.log2 : ℤ) - (q.den.log2 : ℤ) + 1 =
        ((q.num.natAbs.log2 + 1 : ℕ) : ℤ) - ((q.den.log2 : ℕ) : ℤ) := by
      push_cast
      ring
    rw [he, hpow]
    exact hU
  · rw [if_neg hif]
    constructor
    · have he : (q.num.natAbs.log2 : ℤ) - (q.den.log2 : ℤ) - 1 =
          ((q.num.natAbs.log2 : ℕ) : ℤ) - ((q.den.log2 + 1 : ℕ) : ℤ) := by
        push_cast
        ring
      rw [he, hpow]
      exact le_of_lt hL
    · rw [show (q.num.natAbs.log2 : ℤ) - (q.den.log2 : ℤ) - 1 + 1 =
          (q.num.natAbs.log2 : ℤ) - (q.den.log2 : ℤ) by ring]
      exact lt_of_not_le hif

theorem floorLog2_le {q : ℚ} {E : ℤ} (hq : 0 < q) (h : q < (2:ℚ) ^ (E + 1)) :
    floorLog2 q ≤ E := by
  have hs := (floorLog2_spec q hq).1
  have hlt := lt_of_le_of_lt hs h
  have := (zpow_lt_zpow_iff_right₀ (by norm_num : (1:ℚ) < 2)).mp hlt
  omega

theorem floorLog2_eq {q : ℚ} {E : ℤ} (h1 : (2:ℚ) ^ E ≤ q) (h2 : q < (2:ℚ) ^ (E + 1)) :
    floorLog2 q = E := by
  have hq : 0 < q := lt_of_lt_of_le (by positivity) h1
  have hle := floorLog2_le hq h2
  have hs2 := (floorLog2_spec q hq).2
  have hlt := lt_of_le_of_lt h1 hs2
  have := (zpow_lt_zpow_iff_right₀ (by norm_num : (1:ℚ) < 2)).mp hlt
  omega

theorem roundDouble_pos_eq (q : ℚ) (hq : 0 < q) :
    roundDouble q = (roundHalfEven (q * (2:ℚ) ^ ((52:ℤ) - floorLog2 q)) : ℚ) *
      (2:ℚ) ^ (floorLog2 q - (52:ℤ)) := by
  unfold roundDouble
  rw [if_neg (not_le.mpr hq)]

theorem roundDouble_err (q : ℚ) (hq : 0 < q) :
    |roundDouble q - q| ≤ (2:ℚ) ^ (floorLog2 q - 53) := by
  rw [roundDouble_pos_eq q hq]
  set e := floorLog2 q with he
  set x := q * (2:ℚ) ^ ((52:ℤ) - e) with hx
  have hqx : q = x * (2:ℚ) ^ (e - (52:ℤ)) := by
    rw [hx, mul_assoc, ← zpow_add₀ (by norm_num : (2:ℚ) ≠ 0)]
    norm_num
  have h1 : (roundHalfEven x : ℚ) * (2:ℚ) ^ (e - (52:ℤ)) - q =
      ((roundHalfEven x : ℚ) - x) * (2:ℚ) ^ (e - (52:ℤ)) := by
    conv_lhs => rw [hqx]
    ring
  rw [h1, abs_mul, abs_of_pos (show (0:ℚ) < (2:ℚ) ^ (e - (52:ℤ)) by positivity)]
  calc |(roundHalfEven x : ℚ) - x| * (2:ℚ) ^ (e - (52:ℤ))
      ≤ 1/2 * (2:ℚ) ^ (e - (52:ℤ)) :=
        mul_le_mul_of_nonneg_right (roundHalfEven_abs x) (by positivity)
    _ = (2:ℚ) ^ (e - 53) := by
        rw [show e - (53:ℤ) = (-1) + (e - 52) by ring, zpow_add₀ (by norm_num : (2:ℚ) ≠ 0)]
        norm_num

theorem roundDouble_natCast (v : ℕ) (hv : v < 2 ^ 53) : roundDouble (v : ℚ) = v := by
  rcases Nat.eq_zero_or_pos v with rfl | hpos
  · simp [roundDouble]
  · have hq : (0:ℚ) < v := by exact_mod_cast hpos
    rw [roundDouble_pos_eq _ hq]
    have he : floorLog2 (v:ℚ) ≤ 52 := by
      apply floorLog2_le hq
      rw [show ((52:ℤ) + 1) = ((53:ℕ) : ℤ) by norm_num, zpow_natCast]
      exact_mod_cast hv
    set e := floorLog2 (v:ℚ) with hee
    have he0 : 0 ≤ e := by
      have hs := (floorLog2_spec _ hq).2
      by_contra hneg
      push_neg at hneg
      have hz : (2:ℚ) ^ (e + 1) ≤ (2:ℚ) ^ (0:ℤ) :=
        zpow_le_zpow_right₀ (by norm_num) (by omega)
      have h1q : (1:ℚ) ≤ v := by exact_mod_cast hpos
      rw [zpow_zero] at hz
      linarith
    have hsc : (v:ℚ) * (2:ℚ) ^ ((52:ℤ) - e) = (((v * 2 ^ (52 - e).toNat : ℕ) : ℤ) : ℚ) := by
      push_cast
      rw [← zpow_natCast (2:ℚ) (52 - e).toNat,
        show (((52 - e).toNat : ℕ) : ℤ) = 52 - e by omega]
    rw [hsc, roundHalfEven_intCast]
    push_cast
    rw [← zpow_natCast (2:ℚ) (52 - e).toNat,
      show (((52 - e).toNat : ℕ) : ℤ) = 52 - e by omega]
    rw [mul_assoc, ← zpow_add₀ (by norm_num : (2:ℚ) ≠ 0)]
    rw [show (52:ℤ) - e + (e - 52) = 0 by ring, zpow_zero, mul_one]

theorem roundDouble_two_pow_53 : roundDouble ((2:ℚ) ^ (53:ℕ)) = (2:ℚ) ^ (53:ℕ) := by
  have hq : (0:ℚ) < 2 ^ (53:ℕ) := by positivity
  rw [roundDouble_pos_eq _ hq]
  have he : floorLog2 ((2:ℚ) ^ (53:ℕ)) = 53 := by
    apply floorLog2_eq
    · rw [show ((53:ℤ)) = ((53:ℕ):ℤ) by norm_num, zpow_natCast]
    · rw [show ((53:ℤ) + 1) = ((54:ℕ):ℤ) by norm_num, zpow_natCast]
      norm_num
  rw [he]
  have hsc : (2:ℚ) ^ (53:ℕ) * (2:ℚ) ^ ((52:ℤ) - 53) = ((2 ^ 52 : ℤ) : ℚ) := by
    rw [show (52:ℤ) - 53 = -1 by norm_num, zpow_neg_one]
    norm_num
  rw [hsc, roundHalfEven_intCast]
  rw [show (53:ℤ) - (52:ℤ) = 1 by norm_num, zpow_one]
  push_cast
  norm_num

theorem roundDouble_collapse (d : ℚ) (hd0 : 0 < d) (hd1 : d < 1) :
    roundDouble ((2:ℚ) ^ (53:ℕ) + d) = (2:ℚ) ^ (53:ℕ) := by
  have hq : (0:ℚ) < 2 ^ (53:ℕ) + d := by positivity
  rw [roundDouble_pos_eq _ hq]
  have he : floorLog2 ((2:ℚ) ^ (53:ℕ) + d) = 53 := by
    apply floorLog2_eq
    · rw [show ((53:ℤ)) = ((53:ℕ):ℤ) by norm_num, zpow_natCast]
      linarith
    · rw [show ((53:ℤ) + 1) = ((54:ℕ):ℤ) by norm_num, zpow_natCast]
      have hexp : (2:ℚ) ^ (54:ℕ) = 2 ^ (53:ℕ) + 2 ^ (53:ℕ) := by
        rw [show (54:ℕ) = 53 + 1 by norm_num, pow_succ]
        ring
      have hone : (1:ℚ) ≤ 2 ^ (53:ℕ) := one_le_pow₀ (by norm_num)
      linarith
  rw [he]
  have hsc : ((2:ℚ) ^ (53:ℕ) + d) * (2:ℚ) ^ ((52:ℤ) - 53) = ((2 ^ 52 : ℤ) : ℚ) + d/2 := by
    rw [show (52:ℤ) - 53 = -1 by norm_num, zpow_neg_one]
    push_cast
    ring_nf
  rw [hsc, roundHalfEven_small_add _ _ (by linarith) (by linarith)]
  rw [show (53:ℤ) - (52:ℤ) = 1 by norm_num, zpow_one]
  push_cast
  norm_num

theorem intToFloat_small (v : ℕ) (hv : v < 2 ^ 53) : intToFloat v = some ((v:ℚ)) := by
  unfold intToFloat
  rw [roundDouble_natCast v hv]
  rw [if_neg]
  push_neg
  calc (v:ℚ) < ((2 ^ 53 : ℕ) : ℚ) := by exact_mod_cast hv
    _ = (2:ℚ) ^ ((53:ℕ):ℤ) := by
        rw [zpow_natCast]
        push_cast
        ring
    _ ≤ (2:ℚ) ^ (1024:ℤ) := zpow_le_zpow_right₀ (by norm_num) (by norm_num)

theorem intToFloat_of_lt (v : ℕ) (hv : v < 2 ^ 1024 - 2 ^ 970) :
    intToFloat v = some (roundDouble (v:ℚ)) := by
  unfold intToFloat
  rw [if_neg]
  push_neg
  rcases Nat.eq_zero_or_pos v with rfl | hpos
  · rw [show ((0:ℕ):ℚ) = 0 by norm_num, show roundDouble 0 = 0 by simp [roundDouble]]
    positivity
  · have hq : (0:ℚ) < v := by exact_mod_cast hpos
    have he : floorLog2 (v:ℚ) ≤ 1023 := by
      apply floorLog2_le hq
      rw [show (1023:ℤ) + 1 = ((1024:ℕ):ℤ) by norm_num, zpow_natCast]
      have hv2 : v < 2 ^ 1024 := lt_of_lt_of_le hv (Nat.sub_le _ _)
      exact_mod_cast hv2
    have herr := roundDouble_err _ hq
    rw [abs_le] at herr
    have hmono : (2:ℚ) ^ (floorLog2 (v:ℚ) - 53) ≤ (2:ℚ) ^ (970:ℤ) :=
      zpow_le_zpow_right₀ (by norm_num) (by omega)
    have hvq : (v:ℚ) < (2:ℚ) ^ (1024:ℤ) - (2:ℚ) ^ (970:ℤ) := by
      have hc : ((v:ℕ):ℚ) < (((2 ^ 1024 - 2 ^ 970 : ℕ)):ℚ) := by exact_mod_cast hv
      rw [Nat.cast_sub (by norm_num : (2:ℕ) ^ 970 ≤ 2 ^ 1024)] at hc
      push_cast at hc
      rw [show (2:ℚ) ^ (1024:ℤ) = ((2:ℚ) ^ (1024:ℕ)) by
            rw [show ((1024:ℤ)) = ((1024:ℕ):ℤ) by norm_num, zpow_natCast],
          show (2:ℚ) ^ (970:ℤ) = ((2:ℚ) ^ (970:ℕ)) by
            rw [show ((970:ℤ)) = ((970:ℕ):ℤ) by norm_num, zpow_natCast]]
      exact hc
    linarith

theorem intToFloat_overflow (v : ℕ) (hv : 2 ^ 1024 - 2 ^ 970 ≤ v) : intToFloat v = none := by
  unfold intToFloat
  rw [if_pos]
  have hq : (0:ℚ) < v := by
    have hvn : (0:ℕ) < v := lt_of_lt_of_le (by norm_num) hv
    exact_mod_cast hvn
  rw [roundDouble_pos_eq _ hq]
  set e := floorLog2 (v:ℚ) with hee
  have hspec := floorLog2_spec _ hq
  have hvq : (2:ℚ) ^ (1024:ℤ) - (2:ℚ) ^ (970:ℤ) ≤ (v:ℚ) := by
    have hc : (((2 ^ 1024 - 2 ^ 970 : ℕ)):ℚ) ≤ ((v:ℕ):ℚ) := by exact_mod_cast hv
    rw [Nat.cast_sub (by norm_num : (2:ℕ) ^ 970 ≤ 2 ^ 1024)] at hc
    push_cast at hc
    rw [show (2:ℚ) ^ (1024:ℤ) = ((2:ℚ) ^ (1024:ℕ)) by
          rw [show ((1024:ℤ)) = ((1024:ℕ):ℤ) by norm_num, zpow_natCast],
        show (2:ℚ) ^ (970:ℤ) = ((2:ℚ) ^ (970:ℕ)) by
          rw [show ((970:ℤ)) = ((970:ℕ):ℤ) by norm_num, zpow_natCast]]
    exact hc
  have he1023 : 1023 ≤ e := by
    by_contra hc
    push_neg at hc
    have hup : (v:ℚ) < (2:ℚ) ^ (e + 1) := hspec.2
    have hz : (2:ℚ) ^ (e + 1) ≤ (2:ℚ) ^ (1023:ℤ) :=
      zpow_le_zpow_right₀ (by norm_num) (by omega)
    have hx : (2:ℚ) ^ (1024:ℤ) = 2 ^ (1023:ℤ) + 2 ^ (1023:ℤ) := by
      rw [show (1024:ℤ) = 1023 + 1 by norm_num, zpow_add₀ (by norm_num : (2:ℚ) ≠ 0)]
      ring
    have hy : (2:ℚ) ^ (970:ℤ) ≤ 2 ^ (1023:ℤ) :=
      zpow_le_zpow_right₀ (by norm_num) (by norm_num)
    linarith
  set x := (v:ℚ) * (2:ℚ) ^ ((52:ℤ) - e) with hx
  rcases eq_or_lt_of_le he1023 with heq | hgt
  · -- e = 1023: x is at least 2^53 - 1/2 and 2^53 - 1 is odd, so the
    -- significand rounds up to 2^53 (ties to even at the midpoint).
    have hxge : ((2 ^ 53 - 1 : ℤ) : ℚ) + 1/2 ≤ x := by
      have hmul : ((2:ℚ) ^ (1024:ℤ) - 2 ^ (970:ℤ)) * (2:ℚ) ^ ((52:ℤ) - e) ≤ x := by
        rw [hx]
        exact mul_le_mul_of_nonneg_right hvq (by positivity)
      have hval : ((2:ℚ) ^ (1024:ℤ) - 2 ^ (970:ℤ)) * (2:ℚ) ^ ((52:ℤ) - e) =
          (2:ℚ) ^ (53:ℤ) - 2 ^ (-(1:ℤ)) := by
        rw [← heq]
        rw [sub_mul, ← zpow_add₀ (by norm_num : (2:ℚ) ≠ 0),
          ← zpow_add₀ (by norm_num : (2:ℚ) ≠ 0)]
        norm_num
      rw [hval] at hmul
      have h53 : (2:ℚ) ^ (53:ℤ) = ((2 ^ 53 : ℤ) : ℚ) := by
        rw [show ((53:ℤ)) = ((53:ℕ):ℤ) by norm_num, zpow_natCast]
        push_cast
        ring
      have hm1 : (2:ℚ) ^ (-(1:ℤ)) = 1/2 := by norm_num
      rw [h53, hm1] at hmul
      push_cast at hmul ⊢
      linarith
    have hrnd : (2:ℤ) ^ 53 - 1 + 1 ≤ roundHalfEven x :=
      roundHalfEven_ge_of_half (by norm_num) hxge
    have hrq : ((2:ℚ) ^ (53:ℤ)) ≤ (roundHalfEven x : ℚ) := by
      have : ((2 ^ 53 - 1 + 1 : ℤ) : ℚ) ≤ (roundHalfEven x : ℚ) := by exact_mod_cast hrnd
      rw [show (2:ℚ) ^ (53:ℤ) = ((2 ^ 53 - 1 + 1 : ℤ) : ℚ) by
        rw [show ((53:ℤ)) = ((53:ℕ):ℤ) by norm_num, zpow_natCast]
        push_cast
        ring]
      exact this
    calc (2:ℚ) ^ (1024:ℤ) = (2:ℚ) ^ (53:ℤ) * (2:ℚ) ^ (e - (52:ℤ)) := by
          rw [← zpow_add₀ (by norm_num : (2:ℚ) ≠ 0), ← heq]
          norm_num
      _ ≤ (roundHalfEven x : ℚ) * (2:ℚ) ^ (e - (52:ℤ)) :=
          mul_le_mul_of_nonneg_right hrq (by positivity)
  · -- e ≥ 1024: the significand is at least 2^52, so the result is at
    -- least 2^e ≥ 2^1024.
    have hxge : ((2 ^ 52 : ℤ) : ℚ) ≤ x := by
      have hmul : (2:ℚ) ^ e * (2:ℚ) ^ ((52:ℤ) - e) ≤ x :=
        mul_le_mul_of_nonneg_right hspec.1 (by positivity)
      rw [← zpow_add₀ (by norm_num : (2:ℚ) ≠ 0)] at hmul
      rw [show e + ((52:ℤ) - e) = 52 by ring] at hmul
      rw [show ((2 ^ 52 : ℤ) : ℚ) = (2:ℚ) ^ (52:ℤ) by
        rw [show ((52:ℤ)) = ((52:ℕ):ℤ) by norm_num, zpow_natCast]
        push_cast
        ring]
      exact hmul
    have hfl : (2:ℤ) ^ 52 ≤ ⌊x⌋ := Int.le_floor.mpr hxge
    have hrnd := roundHalfEven_ge_floor x
    have hrq : ((2:ℚ) ^ (52:ℤ)) ≤ (roundHalfEven x : ℚ) := by
      have hle : ((2:ℤ) ^ 52 : ℤ) ≤ roundHalfEven x := le_trans hfl hrnd
      rw [show (2:ℚ) ^ (52:ℤ) = (((2:ℤ) ^ 52 : ℤ) : ℚ) by
        rw [show ((52:ℤ)) = ((52:ℕ):ℤ) by norm_num, zpow_natCast]
        push_cast
        ring]
      exact_mod_cast hle
    calc (2:ℚ) ^ (1024:ℤ) ≤ (2:ℚ) ^ e := zpow_le_zpow_right₀ (by norm_num) (by omega)
      _ = (2:ℚ) ^ (52:ℤ) * (2:ℚ) ^ (e - (52:ℤ)) := by
          rw [← zpow_add₀ (by norm_num : (2:ℚ) ≠ 0)]
          norm_num
      _ ≤ (roundHalfEven x : ℚ) * (2:ℚ) ^ (e - (52:ℤ)) :=
          mul_le_mul_of_nonneg_right hrq (by positivity)

theorem letter_double_bounds {k : ℕ} (hk1 : 1 ≤ k) (hk2 : k ≤ 26) :
    (k : ℚ)/100 - 1/1000 ≤ roundDouble ((k:ℚ)/100) ∧
    roundDouble ((k:ℚ)/100) ≤ (k:ℚ)/100 + 1/1000 := by
  have hk1q : (1:ℚ) ≤ k := by exact_mod_cast hk1
  have hk2q : (k:ℚ) ≤ 26 := by exact_mod_cast hk2
  have hq : (0:ℚ) < (k:ℚ)/100 := by
    apply div_pos (by linarith) (by norm_num)
  have he : floorLog2 ((k:ℚ)/100) ≤ -2 := by
    apply floorLog2_le hq
    rw [show (-2:ℤ) + 1 = -1 by norm_num]
    rw [show (2:ℚ) ^ (-1:ℤ) = 1/2 by norm_num]
    linarith
  have herr := roundDouble_err _ hq
  rw [abs_le] at herr
  have hmono : (2:ℚ) ^ (floorLog2 ((k:ℚ)/100) - 53) ≤ 1/1000 := by
    calc (2:ℚ) ^ (floorLog2 ((k:ℚ)/100) - 53) ≤ (2:ℚ) ^ (-(55:ℤ)) :=
          zpow_le_zpow_right₀ (by norm_num) (by omega)
      _ ≤ 1/1000 := by
          rw [zpow_neg, show ((55:ℤ)) = ((55:ℕ):ℤ) by norm_num, zpow_natCast]
          rw [inv_le_comm₀ (by positivity) (by norm_num)]
          norm_num
  constructor <;> linarith

theorem sum_double_bounds {x : ℚ} (hx0 : 0 < x) (hx : x < (2:ℚ) ^ (46:ℕ)) :
    x - 1/256 ≤ roundDouble x ∧ roundDouble x ≤ x + 1/256 := by
  have he : floorLog2 x ≤ 45 := by
    apply floorLog2_le hx0
    rw [show (45:ℤ) + 1 = ((46:ℕ):ℤ) by norm_num, zpow_natCast]
    exact hx
  have herr := roundDouble_err _ hx0
  rw [abs_le] at herr
  have hmono : (2:ℚ) ^ (floorLog2 x - 53) ≤ 1/256 := by
    calc (2:ℚ) ^ (floorLog2 x - 53) ≤ (2:ℚ) ^ (-(8:ℤ)) :=
          zpow_le_zpow_right₀ (by norm_num) (by omega)
      _ = 1/256 := by
          rw [zpow_neg, show ((8:ℤ)) = ((8:ℕ):ℤ) by norm_num, zpow_natCast]
          norm_num
  constructor <;> linarith

theorem decode_digits_letter {s : List Char} {L : Char} (hne : s ≠ [])
    (h : ∀ c ∈ s, c.isDigit = true) (hL1 : 'A' ≤ L) (hL2 : L ≤ 'Z') :
    alphanumeric_index_to_numeric_index (s ++ [L]) =
      match intToFloat (strToNat s) with
      | some x => some (roundDouble (x +
          roundDouble (((L.toNat - ('A').toNat + 1 : ℕ) : ℚ) / 100)))
      | none => none := by
  have hLA : L.isAlpha = true := by
    rw [char_isAlpha_iff]
    rw [char_le_iff_toNat] at hL1 hL2
    have e1 : ('A').toNat = 65 := by decide
    have e2 : ('Z').toNat = 90 := by decide
    rw [e1] at hL1
    rw [e2] at hL2
    exact Or.inl ⟨hL1, hL2⟩
  have hLD : L.isDigit = false := by
    by_contra hc
    rw [Bool.not_eq_false] at hc
    rw [char_isDigit_not_isAlpha hc] at hLA
    exact Bool.false_ne_true hLA
  have hd : (s ++ [L]).filter (fun c => c.isDigit) = s := by
    rw [List.filter_append, filter_isDigit_all h]
    simp [hLD]
  have ha : (s ++ [L]).filter (fun c => c.isAlpha) = [L] := by
    rw [List.filter_append, filter_isAlpha_of_digits h]
    simp [hLA]
  unfold alphanumeric_index_to_numeric_index
  rw [hd, ha]
  rw [if_pos (by simp : ([L] : List Char) ≠ []), if_neg hne]
  rw [List.map_cons, List.map_nil, char_toUpper_of_upper hL1 hL2]
  simp [alpha_to_numeric, hL1, hL2]

/-- Counterexample to claim C6 as stated: at n = 2^53 the binary64
addition of the program absorbs the insertion-code offset entirely —
decode("9007199254740992" ++ "A") returns exactly the same value as
decode("9007199254740992") — so decode(str(n)) < decode(str(n)+L1)
fails for this positive integer n. -/
theorem decode_strict_ordering_cex :
    alphanumeric_index_to_numeric_index
      ['9','0','0','7','1','9','9','2','5','4','7','4','0','9','9','2'] =
      some ((9007199254740992 : ℚ)) ∧
    alphanumeric_index_to_numeric_index
      (['9','0','0','7','1','9','9','2','5','4','7','4','0','9','9','2'] ++ ['A']) =
      some ((9007199254740992 : ℚ)) ∧
    ¬ ((9007199254740992 : ℚ) < (9007199254740992 : ℚ)) := by
  have hsv : strToNat ['9','0','0','7','1','9','9','2','5','4','7','4','0','9','9','2'] =
      9007199254740992 := by decide
  have h53 : intToFloat 9007199254740992 = some ((9007199254740992 : ℚ)) := by
    unfold intToFloat
    rw [show ((9007199254740992:ℕ):ℚ) = (2:ℚ) ^ (53:ℕ) from by push_cast; norm_num]
    rw [roundDouble_two_pow_53]
    rw [if_neg]
    · norm_num
    · push_neg
      calc (2:ℚ) ^ (53:ℕ) = (2:ℚ) ^ ((53:ℕ):ℤ) := (zpow_natCast 2 53).symm
        _ < (2:ℚ) ^ (1024:ℤ) := by
            rw [zpow_lt_zpow_iff_right₀ (by norm_num : (1:ℚ) < 2)]
            norm_num
  refine ⟨?_, ?_, lt_irrefl _⟩
  · rw [decode_all_digits (by decide) (fun c hc => by revert c hc; decide), hsv]
    norm_num
  · rw [decode_digits_letter (by decide) (fun c hc => by revert c hc; decide)
      (by decide) (by decide), hsv, h53]
    dsimp only
    rw [show (('A').toNat - ('A').toNat + 1 : ℕ) = 1 from by decide]
    have hd := letter_double_bounds (k := 1) (by norm_num) (by norm_num)
    have hc53 : ((9007199254740992 : ℚ)) = (2:ℚ) ^ (53:ℕ) := by norm_num
    rw [hc53]
    rw [roundDouble_collapse _ (by push_cast at hd ⊢; linarith)
      (by push_cast at hd ⊢; linarith)]

/-- Claim C6, amended: the strict ordering
decode(str(n)) < decode(str(n)+L1) < decode(str(n)+L2) < decode(str(n+1))
holds for every positive integer n below 2^45 (about 3.5e13, far above
any residue number) and uppercase letters L1 < L2; in the program the
letter branch is binary64 arithmetic, whose rounding is accounted for
here, and which destroys the ordering for large n (see the
counterexample at n = 2^53).  Stated for arbitrary nonempty digit
strings s, s2 with consecutive values (Python str(n), str(n+1) are
such strings). -/
theorem decode_strict_ordering (s s2 : List Char) (L1 L2 : Char)
    (hs : s ≠ []) (hds : ∀ c ∈ s, c.isDigit = true)
    (hs2 : s2 ≠ []) (hds2 : ∀ c ∈ s2, c.isDigit = true)
    (hsucc : strToNat s2 = strToNat s + 1)
    (hbound : strToNat s < 2 ^ 45)
    (hA : 'A' ≤ L1) (hLL : L1 < L2) (hZ : L2 ≤ 'Z') :
    alphanumeric_index_to_numeric_index s = some ((strToNat s : ℚ)) ∧
    alphanumeric_index_to_numeric_index (s ++ [L1]) =
      some (roundDouble ((strToNat s : ℚ) +
        roundDouble (((L1.toNat - ('A').toNat + 1 : ℕ) : ℚ) / 100))) ∧
    alphanumeric_index_to_numeric_index (s ++ [L2]) =
      some (roundDouble ((strToNat s : ℚ) +
        roundDouble (((L2.toNat - ('A').toNat + 1 : ℕ) : ℚ) / 100))) ∧
    alphanumeric_index_to_numeric_index s2 = some ((strToNat s2 : ℚ)) ∧
    (strToNat s : ℚ) < roundDouble ((strToNat s : ℚ) +
      roundDouble (((L1.toNat - ('A').toNat + 1 : ℕ) : ℚ) / 100)) ∧
    roundDouble ((strToNat s : ℚ) +
      roundDouble (((L1.toNat - ('A').toNat + 1 : ℕ) : ℚ) / 100)) <
      roundDouble ((strToNat s : ℚ) +
        roundDouble (((L2.toNat - ('A').toNat + 1 : ℕ) : ℚ) / 100)) ∧
    roundDouble ((strToNat s : ℚ) +
      roundDouble (((L2.toNat - ('A').toNat + 1 : ℕ) : ℚ) / 100)) < (strToNat s2 : ℚ) := by
  have eA : ('A').toNat = 65 := by decide
  have eZ : ('Z').toNat = 90 := by decide
  have hA2 : L1 ≤ 'Z' := le_of_lt (lt_of_lt_of_le hLL hZ)
  have hA1 : 'A' ≤ L2 := le_of_lt (lt_of_le_of_lt hA hLL)
  have hv53 : strToNat s < 2 ^ 53 := lt_of_lt_of_le hbound (by norm_num)
  have hif : intToFloat (strToNat s) = some ((strToNat s : ℚ)) := intToFloat_small _ hv53
  -- letter offsets and their double bounds
  have hk1a : 1 ≤ L1.toNat - ('A').toNat + 1 := by omega
  have hk1b : L1.toNat - ('A').toNat + 1 ≤ 26 := by
    rw [char_le_iff_toNat, eZ] at hA2
    rw [eA]
    omega
  have hk2a : 1 ≤ L2.toNat - ('A').toNat + 1 := by omega
  have hk2b : L2.toNat - ('A').toNat + 1 ≤ 26 := by
    rw [char_le_iff_toNat, eZ] at hZ
    rw [eA]
    omega
  have hd1 := letter_double_bounds hk1a hk1b
  have hd2 := letter_double_bounds hk2a hk2b
  have hklt : ((L1.toNat - ('A').toNat + 1 : ℕ) : ℚ) + 1 ≤
      ((L2.toNat - ('A').toNat + 1 : ℕ) : ℚ) := by
    have hl : L1.toNat < L2.toNat := by
      rw [char_lt_iff_toNat] at hLL
      exact hLL
    have hg : 'A' ≤ L1 := hA
    rw [char_le_iff_toNat, eA] at hg
    have : L1.toNat - ('A').toNat + 1 + 1 ≤ L2.toNat - ('A').toNat + 1 := by
      rw [eA]
      omega
    exact_mod_cast this
  have hk1lo : (1:ℚ) ≤ ((L1.toNat - ('A').toNat + 1 : ℕ) : ℚ) := by exact_mod_cast hk1a
  have hk1hi : ((L1.toNat - ('A').toNat + 1 : ℕ) : ℚ) ≤ 26 := by exact_mod_cast hk1b
  have hk2lo : (1:ℚ) ≤ ((L2.toNat - ('A').toNat + 1 : ℕ) : ℚ) := by exact_mod_cast hk2a
  have hk2hi : ((L2.toNat - ('A').toNat + 1 : ℕ) : ℚ) ≤ 26 := by exact_mod_cast hk2b
  -- value bounds
  have hv0 : (0:ℚ) ≤ (strToNat s : ℚ) := by positivity
  have hv45 : (strToNat s : ℚ) ≤ (2:ℚ) ^ (45:ℕ) - 1 := by
    have hn : strToNat s ≤ 2 ^ 45 - 1 := by omega
    have hc : ((strToNat s : ℕ) : ℚ) ≤ (((2 ^ 45 - 1 : ℕ)) : ℚ) := by exact_mod_cast hn
    rw [Nat.cast_sub (by norm_num : 1 ≤ (2:ℕ) ^ 45)] at hc
    push_cast at hc
    exact hc
  have h46 : (2:ℚ) ^ (46:ℕ) = 2 ^ (45:ℕ) + 2 ^ (45:ℕ) := by
    rw [show (46:ℕ) = 45 + 1 by norm_num, pow_succ]
    ring
  have h45one : (1:ℚ) ≤ (2:ℚ) ^ (45:ℕ) := one_le_pow₀ (by norm_num)
  -- sum bounds
  have hs1 := sum_double_bounds
    (x := (strToNat s : ℚ) + roundDouble (((L1.toNat - ('A').toNat + 1 : ℕ) : ℚ) / 100))
    (by linarith [hd1.1, hk1lo, hv0]) (by linarith [hd1.2, hk1hi, hv45, h46, h45one])
  have hs2b := sum_double_bounds
    (x := (strToNat s : ℚ) + roundDouble (((L2.toNat - ('A').toNat + 1 : ℕ) : ℚ) / 100))
    (by linarith [hd2.1, hk2lo, hv0]) (by linarith [hd2.2, hk2hi, hv45, h46, h45one])
  refine ⟨decode_all_digits hs hds, ?_, ?_, decode_all_digits hs2 hds2, ?_, ?_, ?_⟩
  · rw [decode_digits_letter hs hds hA hA2, hif]
  · rw [decode_digits_letter hs hds hA1 hZ, hif]
  · linarith [hd1.1, hs1.1]
  · linarith [hd1.2, hd2.1, hs1.2, hs2b.1]
  · rw [hsucc]
    rw [show ((strToNat s + 1 : ℕ) : ℚ) = (strToNat s : ℚ) + 1 from by push_cast; ring]
    linarith [hd2.2, hs2b.2]

/-- Witness for C6 (amended) at n = 11 \u003c 2^45, L1 = A, L2 = B. -/
theorem decode_strict_ordering_witness :
    alphanumeric_index_to_numeric_index ['1', '1'] = some ((strToNat ['1', '1'] : ℚ)) ∧
    alphanumeric_index_to_numeric_index (['1', '1'] ++ ['A']) =
      some (roundDouble ((strToNat ['1', '1'] : ℚ) +
        roundDouble (((('A').toNat - ('A').toNat + 1 : ℕ) : ℚ) / 100))) ∧
    alphanumeric_index_to_numeric_index (['1', '1'] ++ ['B']) =
      some (roundDouble ((strToNat ['1', '1'] : ℚ) +
        roundDouble (((('B').toNat - ('A').toNat + 1 : ℕ) : ℚ) / 100))) ∧
    alphanumeric_index_to_numeric_index ['1', '2'] = some ((strToNat ['1', '2'] : ℚ)) ∧
    (strToNat ['1', '1'] : ℚ) < roundDouble ((strToNat ['1', '1'] : ℚ) +
      roundDouble (((('A').toNat - ('A').toNat + 1 : ℕ) : ℚ) / 100)) ∧
    roundDouble ((strToNat ['1', '1'] : ℚ) +
      roundDouble (((('A').toNat - ('A').toNat + 1 : ℕ) : ℚ) / 100)) <
      roundDouble ((strToNat ['1', '1'] : ℚ) +
        roundDouble (((('B').toNat - ('A').toNat + 1 : ℕ) : ℚ) / 100)) ∧
    roundDouble ((strToNat ['1', '1'] : ℚ) +
      roundDouble (((('B').toNat - ('A').toNat + 1 : ℕ) : ℚ) / 100)) <
      (strToNat ['1', '2'] : ℚ) :=
  decode_strict_ordering ['1', '1'] ['1', '2'] 'A' 'B' (by decide) (by decide)
    (by decide) (by decide) (by decide) (by decide) (by decide) (by decide) (by decide)

theorem filter_isDigit_map_toUpper (s : List Char) :
    (s.map Char.toUpper).filter (fun c => c.isDigit) = s.filter (fun c => c.isDigit) := by
  induction s with
  | nil => rfl
  | cons a tl ih =>
    by_cases ha : a.isDigit = true
    · simp only [List.map_cons, List.filter_cons, char_isDigit_toUpper, ha, if_true,
        char_toUpper_of_isDigit ha, ih]
    · have ha2 : a.isDigit = false := by
        rw [Bool.eq_false_iff]
        exact ha
      simp only [List.map_cons, List.filter_cons, char_isDigit_toUpper, ha2,
        Bool.false_eq_true, if_false, ih]

theorem filter_isAlpha_map_toUpper (s : List Char) :
    (s.map Char.toUpper).filter (fun c => c.isAlpha) =
      (s.filter (fun c => c.isAlpha)).map Char.toUpper := by
  induction s with
  | nil => rfl
  | cons a tl ih =>
    by_cases ha : a.isAlpha = true
    · simp only [List.map_cons, List.filter_cons, char_isAlpha_toUpper, ha, if_true, ih]
    · have ha2 : a.isAlpha = false := by
        rw [Bool.eq_false_iff]
        exact ha
      simp only [List.map_cons, List.filter_cons, char_isAlpha_toUpper, ha2,
        Bool.false_eq_true, if_false, ih]

/-- Counterexample to claim C9 as stated: the input "1AB" contains a
digit, yet the decoder raises (`KeyError`: the concatenated letter
string "AB" is not a key of the letter table) instead of returning a
numeric value. -/
theorem decode_digit_no_value_cex :
    (['1', 'A', 'B'].any (fun c => c.isDigit)) = true ∧
    alphanumeric_index_to_numeric_index ['1', 'A', 'B'] = none := by
  constructor
  · decide
  · decide

/-- Claim C9, amended: the decoder raises for every input with no digit
character; it returns a numeric value for every input that contains a
digit and at most one alphabetic character PROVIDED the digit value
converts to a binary64 float without `OverflowError` (i.e. it is below
2^1024 - 2^970; with no letter at all the integer branch never
converts, so any digit value works); with a letter present and a digit
value at or above that threshold the int-to-float conversion inside
`int + float` raises `OverflowError`; and upper-casing the input does
not change the result (lowercase insertion letters are upper-cased
before lookup). -/
theorem decode_digit_letter_conditions :
    (∀ s : List Char, (∀ c ∈ s, c.isDigit = false) →
      alphanumeric_index_to_numeric_index s = none) ∧
    (∀ s : List Char, (∃ c ∈ s, c.isDigit = true) →
      s.filter (fun c => c.isAlpha) = [] →
      (alphanumeric_index_to_numeric_index s).isSome = true) ∧
    (∀ s : List Char, (∃ c ∈ s, c.isDigit = true) →
      (s.filter (fun c => c.isAlpha)).length ≤ 1 →
      strToNat (s.filter (fun c => c.isDigit)) < 2 ^ 1024 - 2 ^ 970 →
      (alphanumeric_index_to_numeric_index s).isSome = true) ∧
    (∀ s : List Char, s.filter (fun c => c.isAlpha) ≠ [] →
      s.filter (fun c => c.isDigit) ≠ [] →
      2 ^ 1024 - 2 ^ 970 ≤ strToNat (s.filter (fun c => c.isDigit)) →
      alphanumeric_index_to_numeric_index s = none) ∧
    (∀ s : List Char,
      alphanumeric_index_to_numeric_index (s.map Char.toUpper) =
        alphanumeric_index_to_numeric_index s) := by
  have hdig_of : ∀ s : List Char, (∃ c ∈ s, c.isDigit = true) →
      s.filter (fun c => c.isDigit) ≠ [] := by
    intro s hex hnil
    obtain ⟨c, hc, hd⟩ := hex
    have hm : c ∈ s.filter (fun c => c.isDigit) := by
      rw [List.mem_filter]
      exact ⟨hc, hd⟩
    rw [hnil] at hm
    exact List.not_mem_nil c hm
  refine ⟨?_, ?_, ?_, ?_, ?_⟩
  · intro s h
    have hdig : s.filter (fun c => c.isDigit) = [] := by
      rw [List.filter_eq_nil_iff]
      intro c hc
      simp [h c hc]
    simp [alphanumeric_index_to_numeric_index, hdig]
  · intro s hex halph
    have hdig := hdig_of s hex
    simp [alphanumeric_index_to_numeric_index, halph, hdig]
  · intro s hex hle hsmall
    have hdig := hdig_of s hex
    rcases halph : s.filter (fun c => c.isAlpha) with _ | ⟨c, rest⟩
    · simp [alphanumeric_index_to_numeric_index, halph, hdig]
    · have hrest : rest = [] := by
        rw [halph] at hle
        simpa using hle
      subst hrest
      have hcmem : c ∈ s.filter (fun c => c.isAlpha) := by
        rw [halph]
        exact List.mem_cons_self c []
      have hcA : c.isAlpha = true := by
        have := (List.mem_filter.mp hcmem).2
        simpa using this
      have hup := char_toUpper_upper_range hcA
      have hA1 : 'A' ≤ c.toUpper := by
        rw [char_le_iff_toNat]
        have eA : ('A').toNat = 65 := by decide
        rw [eA]
        exact hup.1
      have hZ1 : c.toUpper ≤ 'Z' := by
        rw [char_le_iff_toNat]
        have eZ : ('Z').toNat = 90 := by decide
        rw [eZ]
        exact hup.2
      have hq : alpha_to_numeric [c.toUpper] =
          some (roundDouble (((c.toUpper.toNat - ('A').toNat + 1 : ℕ) : ℚ) / 100)) := by
        simp [alpha_to_numeric, hA1, hZ1]
      have hif := intToFloat_of_lt (strToNat (s.filter (fun c => c.isDigit))) hsmall
      simp [alphanumeric_index_to_numeric_index, halph, hdig, hq, hif]
  · intro s halph hdig hbig
    have hif := intToFloat_overflow (strToNat (s.filter (fun c => c.isDigit))) hbig
    rcases han : alpha_to_numeric ((s.filter (fun c => c.isAlpha)).map Char.toUpper)
      with _ | q
    · simp [alphanumeric_index_to_numeric_index, halph, hdig, han]
    · simp [alphanumeric_index_to_numeric_index, halph, hdig, han, hif]
  · intro s
    simp only [alphanumeric_index_to_numeric_index, filter_isDigit_map_toUpper,
      filter_isAlpha_map_toUpper]
    by_cases hnil : s.filter (fun c => c.isAlpha) = []
    · rw [hnil]
      simp
    · have hmapnil : (s.filter (fun c => c.isAlpha)).map Char.toUpper ≠ [] := by
        simpa using hnil
      rw [if_pos hmapnil, if_pos hnil, List.map_map]
      have hmm : (s.filter (fun c => c.isAlpha)).map (Char.toUpper ∘ Char.toUpper) =
          (s.filter (fun c => c.isAlpha)).map Char.toUpper :=
        List.map_congr_left (fun a _ => char_toUpper_toUpper a)
      rw [hmm]

set_option maxRecDepth 8192 in
/-- Witness for C9: the no-digit input "-" raises; "11" (digits only)
yields a value; "11a" (digits and one lowercase letter, small value)
yields a value; 309 nines followed by 'A' (digit value 10^309 - 1,
above the float overflow threshold) raises; upper-casing "11a" to
"11A" leaves the decoded value unchanged. -/
theorem decode_digit_letter_conditions_witness :
    alphanumeric_index_to_numeric_index ['-'] = none ∧
    (alphanumeric_index_to_numeric_index ['1', '1']).isSome = true ∧
    (alphanumeric_index_to_numeric_index ['1', '1', 'a']).isSome = true ∧
    alphanumeric_index_to_numeric_index (List.replicate 309 '9' ++ ['A']) = none ∧
    alphanumeric_index_to_numeric_index (['1', '1', 'a'].map Char.toUpper) =
      alphanumeric_index_to_numeric_index ['1', '1', 'a'] :=
  ⟨decode_digit_letter_conditions.1 ['-'] (by decide),
   decode_digit_letter_conditions.2.1 ['1', '1'] (by decide) (by decide),
   decode_digit_letter_conditions.2.2.1 ['1', '1', 'a'] (by decide) (by decide) (by decide),
   decode_digit_letter_conditions.2.2.2.1 (List.replicate 309 '9' ++ ['A'])
     (by decide) (by decide) (by decide),
   decode_digit_letter_conditions.2.2.2.2 ['1', '1', 'a']⟩

/-- Counterexample to claim C3 as stated: remapping an empty new
sequence (a requested chain with no residues) does not complete normally
with an empty table; it raises.  The aligner argument is irrelevant
because the alignment library's empty-input guard returns no alignments
before the aligner runs, and `alignments[0]` then raises `IndexError`;
a trivial aligner instantiates the argument. -/
theorem remap_empty_seq_cex :
    remap_to_target_seq (fun a b => [(a, b)]) [] ['M', 'K', 'V', 'L'] =
      .error .indexError := by
  decide

/-- Claim C3, amended: for every aligner and every target sequence,
`remap_to_target_seq` applied to an empty new sequence raises
(`IndexError`), rather than returning an empty correspondence table. -/
theorem remap_empty_seq_raises
    (localds : List Char → List Char → List (List Char × List Char))
    (target_seq : List Char) :
    remap_to_target_seq localds [] target_seq = .error .indexError := by
  unfold remap_to_target_seq pairwise_align
  rw [if_pos (Or.inl rfl)]

/-! ### Mutation-table lemmas (claim C7) -/

theorem filter_ne_upper_length {alphabet : List Char} {u : Char}
    (hnd : (alphabet.map Char.toUpper).Nodup) (hmem : u ∈ alphabet.map Char.toUpper) :
    (alphabet.filter (fun new => new.toUpper != u)).length = alphabet.length - 1 := by
  induction alphabet with
  | nil => exact absurd hmem (List.not_mem_nil u)
  | cons a tl ih =>
    rw [List.map_cons, List.nodup_cons] at hnd
    rw [List.map_cons, List.mem_cons] at hmem
    rcases hmem with hu | hu
    · have hfa : (fun new => new.toUpper != u) a = false := by
        simp [hu]
      have hrest : tl.filter (fun new => new.toUpper != u) = tl := by
        rw [List.filter_eq_self]
        intro x hx
        simp only [bne_iff_ne, ne_eq]
        intro hc
        exact hnd.1 (hu ▸ hc ▸ List.mem_map_of_mem Char.toUpper hx)
      simp [List.filter_cons, hfa, hrest]
    · have htl : tl ≠ [] := by
        intro hc
        rw [hc] at hu
        exact List.not_mem_nil u hu
      have hlen : 1 ≤ tl.length := by
        cases tl with
        | nil => exact absurd rfl htl
        | cons x xs => simp
      have hfa : (a.toUpper != u) = true := by
        simp only [bne_iff_ne, ne_eq]
        intro hc
        exact hnd.1 (hc ▸ hu)
      rw [List.filter_cons]
      simp only [hfa, if_true, List.length_cons]
      rw [ih hnd.2 hu]
      omega

theorem mut_rows_from_length (alphabet : List Char)
    (hnd : (alphabet.map Char.toUpper).Nodup) :
    ∀ (seq : List Char), (∀ c ∈ seq, c.toUpper ∈ alphabet.map Char.toUpper) →
      ∀ i, (mut_rows_from alphabet i seq).length = seq.length * (alphabet.length - 1) := by
  intro seq
  induction seq with
  | nil =>
    intro _ i
    simp [mut_rows_from]
  | cons old rest ih =>
    intro hcov i
    have h1 := filter_ne_upper_length hnd (hcov old (List.mem_cons_self old rest))
    have h2 := ih (fun c hc => hcov c (List.mem_cons_of_mem old hc)) (i + 1)
    simp only [mut_rows_from, List.length_append, List.length_map, h1, h2, List.length_cons]
    ring

theorem mut_rows_from_ne (alphabet : List Char) :
    ∀ (seq : List Char) (i : Nat), ∀ row ∈ mut_rows_from alphabet i seq,
      row.mutant ≠ row.wt := by
  intro seq
  induction seq with
  | nil =>
    intro i row hrow
    simp [mut_rows_from] at hrow
  | cons old rest ih =>
    intro i row hrow
    simp only [mut_rows_from, List.mem_append] at hrow
    rcases hrow with hrow | hrow
    · obtain ⟨new, hnew, hmk⟩ := List.mem_map.mp hrow
      have hne : new.toUpper ≠ old.toUpper := by
        have := (List.mem_filter.mp hnew).2
        simpa using this
      rw [← hmk]
      exact hne
    · exact ih (i + 1) row hrow

/-- Claim C7: if the upper-cased alphabet has no duplicates and covers
every residue of the first record's sequence, `make_mut_table` has
exactly `len(seq) * (len(alphabet) - 1)` rows, and every row's mutant
residue differs from its wild-type residue. -/
theorem make_mut_table_count (contents alphabet : List Char) (r : FaRecord)
    (hfirst : (fa_to_pd contents).head? = some r)
    (hcov : ∀ c ∈ r.seq, c.toUpper ∈ alphabet.map Char.toUpper)
    (hnd : (alphabet.map Char.toUpper).Nodup) :
    (make_mut_table contents alphabet).length = r.seq.length * (alphabet.length - 1) ∧
    ∀ row ∈ make_mut_table contents alphabet, row.mutant ≠ row.wt := by
  unfold make_mut_table
  rw [hfirst]
  exact ⟨mut_rows_from_length alphabet hnd r.seq hcov 0, mut_rows_from_ne alphabet r.seq 0⟩

/-- Witness for C7: the two-residue sequence MK over the standard
twenty-letter alphabet yields 2 * 19 = 38 rows, all with mutant
different from wild type. -/
theorem make_mut_table_count_witness :
    (make_mut_table (write_fa [(['t'], ['M', 'K'])])
      ['A', 'C', 'D', 'E', 'F', 'G', 'H', 'I', 'K', 'L',
       'M', 'N', 'P', 'Q', 'R', 'S', 'T', 'V', 'W', 'Y']).length = 38 ∧
    (MutRow.mk 1 'M' 'A').mutant ≠ (MutRow.mk 1 'M' 'A').wt :=
  ⟨(make_mut_table_count (write_fa [(['t'], ['M', 'K'])])
      ['A', 'C', 'D', 'E', 'F', 'G', 'H', 'I', 'K', 'L',
       'M', 'N', 'P', 'Q', 'R', 'S', 'T', 'V', 'W', 'Y']
      ⟨some ['t'], ['M', 'K']⟩ (by decide) (by decide) (by decide)).1,
   (make_mut_table_count (write_fa [(['t'], ['M', 'K'])])
      ['A', 'C', 'D', 'E', 'F', 'G', 'H', 'I', 'K', 'L',
       'M', 'N', 'P', 'Q', 'R', 'S', 'T', 'V', 'W', 'Y']
      ⟨some ['t'], ['M', 'K']⟩ (by decide) (by decide) (by decide)).2
      (MutRow.mk 1 'M' 'A') (by decide)⟩

/-! ### FASTA round-trip lemmas (claim C5) -/

theorem splitOnNl_ne_nil (s : List Char) : splitOnNl s ≠ [] := by
  cases s with
  | nil => simp [splitOnNl]
  | cons c rest =>
    simp only [splitOnNl]
    cases h : splitOnNl rest with
    | nil => simp
    | cons p ps =>
      by_cases hc : c = '\n' <;> simp [hc]

theorem splitOnNl_line {l : List Char} (t : List Char) (h : '\n' ∉ l) :
    splitOnNl (l ++ '\n' :: t) = l :: splitOnNl t := by
  induction l with
  | nil =>
    simp only [List.nil_append, splitOnNl]
    cases ht : splitOnNl t with
    | nil => exact absurd ht (splitOnNl_ne_nil t)
    | cons p ps => simp
  | cons c cs ih =>
    have hc : c ≠ '\n' := fun hc => h (by simp [hc])
    have hcs : '\n' ∉ cs := fun hm => h (List.mem_cons_of_mem c hm)
    simp only [List.cons_append, splitOnNl, List.append_eq]
    rw [ih hcs]
    simp [hc]

theorem splitOnNl_write_fa (rows : List (List Char × List Char))
    (h : ∀ r ∈ rows, '\n' ∉ r.1 ∧ '\n' ∉ r.2) :
    splitOnNl (write_fa rows) = linesOf rows ++ [[]] := by
  induction rows with
  | nil => simp [write_fa, linesOf, splitOnNl]
  | cons r rest ih =>
    have h1 := (h r (List.mem_cons_self r rest)).1
    have h2 := (h r (List.mem_cons_self r rest)).2
    have hrest : ∀ x ∈ rest, '\n' ∉ x.1 ∧ '\n' ∉ x.2 :=
      fun x hx => h x (List.mem_cons_of_mem r hx)
    have hhd : '\n' ∉ ('>' :: r.1) := by
      intro hm
      rcases List.mem_cons.mp hm with h' | h'
      · exact absurd h'.symm (by decide)
      · exact h1 h'
    have hshape : write_fa (r :: rest) =
        ('>' :: r.1) ++ '\n' :: (r.2 ++ '\n' :: write_fa rest) := by
      simp [write_fa, List.flatMap_cons, List.append_assoc]
    rw [hshape, splitOnNl_line _ hhd, splitOnNl_line _ h2, ih hrest]
    simp [linesOf]

theorem pyLines_write_fa (rows : List (List Char × List Char))
    (h : ∀ r ∈ rows, '\n' ∉ r.1 ∧ '\n' ∉ r.2) :
    pyLines (write_fa rows) = linesOf rows := by
  unfold pyLines
  rw [splitOnNl_write_fa rows h, if_pos (List.getLast?_concat _), List.dropLast_concat]

theorem rstrip_append_nonws {l : List Char} {c : Char} (hc : c.isWhitespace = false) :
    rstrip (l ++ [c]) = l ++ [c] := by
  unfold rstrip
  rw [List.reverse_append]
  simp [List.dropWhile, hc]

theorem rstrip_append_ws {l : List Char} {c : Char} (hc : c.isWhitespace = true) :
    rstrip (l ++ [c]) = rstrip l := by
  unfold rstrip
  rw [List.reverse_append]
  simp [List.dropWhile, hc]

theorem rstrip_length_le (l : List Char) : (rstrip l).length ≤ l.length := by
  unfold rstrip
  rw [List.length_reverse]
  calc (l.reverse.dropWhile Char.isWhitespace).length ≤ l.reverse.length :=
        (List.dropWhile_sublist _).length_le
    _ = l.length := List.length_reverse l

theorem rstrip_marker {h : List Char} (hh : rstrip h = h) :
    rstrip ('>' :: h) = '>' :: h := by
  rcases List.eq_nil_or_concat h with rfl | ⟨l, c, rfl⟩
  · decide
  · simp only [List.concat_eq_append] at hh ⊢
    by_cases hc : c.isWhitespace = true
    · exfalso
      have hws := rstrip_append_ws (l := l) hc
      rw [hh] at hws
      have hlen := rstrip_length_le l
      rw [← hws] at hlen
      simp at hlen
    · have hc2 : c.isWhitespace = false := by
        rwa [Bool.not_eq_true] at hc
      have hr : rstrip (('>' :: l) ++ [c]) = ('>' :: l) ++ [c] := rstrip_append_nonws hc2
      simpa using hr

theorem head_ne_of_not_mem {l : List Char} {c : Char} (h : c ∉ l) : l.head? ≠ some c := by
  cases l with
  | nil => simp
  | cons a as =>
    simp only [List.head?_cons, ne_eq, Option.some.injEq]
    intro hc
    exact h (hc ▸ List.mem_cons_self a as)

theorem read_fasta_linesOf (rows : List (List Char × List Char))
    (hcl : ∀ r ∈ rows, rstrip r.1 = r.1 ∧ rstrip r.2 = r.2 ∧
      r.2.head? ≠ some ';' ∧ r.2.head? ≠ some '>') :
    ∀ (i cur : List Char), read_fasta_lines (linesOf rows) (some i) cur =
      ⟨some i, cur⟩ :: rows.map (fun r => FaRecord.mk (some r.1) r.2) := by
  induction rows with
  | nil =>
    intro i cur
    rfl
  | cons r rest ih =>
    intro i cur
    obtain ⟨h1, h2, h3, h4⟩ := hcl r (List.mem_cons_self r rest)
    have hrest : ∀ x ∈ rest, rstrip x.1 = x.1 ∧ rstrip x.2 = x.2 ∧
        x.2.head? ≠ some ';' ∧ x.2.head? ≠ some '>' :=
      fun x hx => hcl x (List.mem_cons_of_mem r hx)
    have hl : linesOf (r :: rest) = ('>' :: r.1) :: r.2 :: linesOf rest := by
      simp [linesOf]
    rw [hl]
    simp only [read_fasta_lines, List.head?_cons, if_pos rfl]
    rw [rstrip_marker h1]
    simp only [List.drop_succ_cons, List.drop_zero]
    rw [if_neg h4, if_neg h3, h2]
    rw [ih hrest r.1 ([] ++ r.2)]
    simp

/-- Counterexample to claim C5 as stated: the record ("h", "A ") has no
record-marker character and no newline in either text, yet reading back
the written file loses the trailing space of the sequence (the reader
right-strips every line), so the round trip is not the identity. -/
theorem write_fa_roundtrip_cex :
    ((['h'] : List Char) ≠ [] ∧ '>' ∉ (['A', ' '] : List Char) ∧
      '\n' ∉ (['A', ' '] : List Char) ∧ '>' ∉ (['h'] : List Char) ∧
      '\n' ∉ (['h'] : List Char)) ∧
    fa_to_pd (write_fa [(['h'], ['A', ' '])]) ≠
      [(['h'], ['A', ' '])].map (fun r => FaRecord.mk (some r.1) r.2) := by
  decide

/-- Claim C5, amended: the round trip reproduces headers and sequences
for every nonempty record list whose texts contain no record marker and
no newline, provided additionally that no header or sequence ends in
whitespace (the reader right-strips each line) and no sequence starts
with a semicolon (such lines are skipped as comments). -/
theorem write_fa_roundtrip (rows : List (List Char × List Char))
    (hne : rows ≠ [])
    (hmark : ∀ r ∈ rows, '>' ∉ r.1 ∧ '>' ∉ r.2)
    (hnl : ∀ r ∈ rows, '\n' ∉ r.1 ∧ '\n' ∉ r.2)
    (hws : ∀ r ∈ rows, rstrip r.1 = r.1 ∧ rstrip r.2 = r.2)
    (hsemi : ∀ r ∈ rows, r.2.head? ≠ some ';') :
    fa_to_pd (write_fa rows) = rows.map (fun r => FaRecord.mk (some r.1) r.2) := by
  unfold fa_to_pd
  rw [pyLines_write_fa rows hnl]
  cases rows with
  | nil => exact absurd rfl hne
  | cons r rest =>
    obtain ⟨hw1, hw2⟩ := hws r (List.mem_cons_self r rest)
    have h4 : r.2.head? ≠ some '>' :=
      head_ne_of_not_mem (hmark r (List.mem_cons_self r rest)).2
    have h3 := hsemi r (List.mem_cons_self r rest)
    have hrest : ∀ x ∈ rest, rstrip x.1 = x.1 ∧ rstrip x.2 = x.2 ∧
        x.2.head? ≠ some ';' ∧ x.2.head? ≠ some '>' := by
      intro x hx
      exact ⟨(hws x (List.mem_cons_of_mem r hx)).1, (hws x (List.mem_cons_of_mem r hx)).2,
        hsemi x (List.mem_cons_of_mem r hx),
        head_ne_of_not_mem (hmark x (List.mem_cons_of_mem r hx)).2⟩
    have hl : linesOf (r :: rest) = ('>' :: r.1) :: r.2 :: linesOf rest := by
      simp [linesOf]
    rw [hl]
    simp only [read_fasta_lines, List.head?_cons, if_pos rfl]
    rw [rstrip_marker hw1]
    simp only [List.drop_succ_cons, List.drop_zero]
    rw [if_neg h4, if_neg h3, hw2]
    rw [read_fasta_linesOf rest hrest r.1 ([] ++ r.2)]
    simp

/-- Witness for C5: a single clean record round-trips exactly. -/
theorem write_fa_roundtrip_witness :
    fa_to_pd (write_fa [(['h'], ['A', 'B'])]) =
      [(['h'], ['A', 'B'])].map (fun r => FaRecord.mk (some r.1) r.2) :=
  write_fa_roundtrip [(['h'], ['A', 'B'])] (by decide) (by decide) (by decide)
    (by decide) (by decide)

/-! ### Pipeline lemmas (claims C1, C2, C8, C10) -/

theorem read_fasta_lines_ne_nil :
    ∀ (L : List (List Char)) (cid : Option (List Char)) (cur : List Char),
      read_fasta_lines L cid cur ≠ [] := by
  intro L
  induction L with
  | nil =>
    intro cid cur
    simp [read_fasta_lines]
  | cons line rest ih =>
    intro cid cur
    simp only [read_fasta_lines]
    split
    · intro hc
      exact ih _ _ (List.append_eq_nil.mp hc).2
    · split
      · exact ih _ _
      · exact ih _ _

theorem fa_to_pd_head_exists (contents : List Char) :
    ∃ r, (fa_to_pd contents).head? = some r := by
  cases hfp : fa_to_pd contents with
  | nil => exact absurd hfp (read_fasta_lines_ne_nil _ _ _)
  | cons a l => exact ⟨a, rfl⟩

theorem extract_residues_from_error :
    ∀ (rs : List RawResidue) (i : Nat),
      (∃ r ∈ rs, r.is_aa = true ∧ protein_letters_3to1 r.resname = none) →
      extract_residues_from i rs = .error .keyError := by
  intro rs
  induction rs with
  | nil =>
    intro i h
    obtain ⟨r, hr, _⟩ := h
    exact absurd hr (List.not_mem_nil r)
  | cons r tl ih =>
    intro i h
    by_cases haa : r.is_aa = true
    · cases hlk : protein_letters_3to1 r.resname with
      | none => simp [extract_residues_from, haa, hlk]
      | some c =>
        have hbad : ∃ x ∈ tl, x.is_aa = true ∧ protein_letters_3to1 x.resname = none := by
          obtain ⟨x, hx, hxa, hxn⟩ := h
          rcases List.mem_cons.mp hx with rfl | hx2
          · rw [hlk] at hxn
            exact absurd hxn (by simp)
          · exact ⟨x, hx2, hxa, hxn⟩
        simp [extract_residues_from, haa, hlk, ih (i + 1) hbad]
    · have haa2 : r.is_aa = false := by
        rwa [Bool.not_eq_true] at haa
      have hbad : ∃ x ∈ tl, x.is_aa = true ∧ protein_letters_3to1 x.resname = none := by
        obtain ⟨x, hx, hxa, hxn⟩ := h
        rcases List.mem_cons.mp hx with rfl | hx2
        · rw [haa2] at hxa
          exact absurd hxa (by simp)
        · exact ⟨x, hx2, hxa, hxn⟩
      simp [extract_residues_from, haa2, ih (i + 1) hbad]

theorem chain_map_table_isSome
    (localds : List Char → List Char → List (List Char × List Char))
    (resis : List ResIRow) (target_seq c : List Char) (t : List ChainMapRow)
    (h : chain_map_table localds resis target_seq c = .ok t) :
    ∀ m ∈ t, m.pdb_i.isSome = true ∧ m.target_i.isSome = true := by
  unfold chain_map_table at h
  split at h
  · exact absurd h (by simp)
  · simp only [Except.ok.injEq] at h
    subst h
    intro m hm
    have h2 := List.mem_filter.mp hm
    have h1 := List.mem_filter.mp h2.1
    constructor
    · have := h1.2
      simp only [Bool.not_eq_true'] at this
      simpa [Option.isNone_eq_false_iff] using this
    · have := h2.2
      simp only [Bool.not_eq_true'] at this
      simpa [Option.isNone_eq_false_iff] using this

theorem chain_tables_mem
    (localds : List Char → List Char → List (List Char × List Char))
    (resis : List ResIRow) (target_seq : List Char) :
    ∀ (cl : List (List Char)) (ts : List (List ChainMapRow)),
      chain_tables localds resis target_seq cl = .ok ts →
      ∀ t ∈ ts, ∃ c, chain_map_table localds resis target_seq c = .ok t := by
  intro cl
  induction cl with
  | nil =>
    intro ts h t ht
    simp only [chain_tables, Except.ok.injEq] at h
    subst h
    exact absurd ht (List.not_mem_nil t)
  | cons c cs ih =>
    intro ts h t ht
    simp only [chain_tables] at h
    cases h1 : chain_map_table localds resis target_seq c with
    | error e =>
      rw [h1] at h
      exact absurd h (by simp)
    | ok t0 =>
      rw [h1] at h
      cases h2 : chain_tables localds resis target_seq cs with
      | error e =>
        rw [h2] at h
        exact absurd h (by simp)
      | ok ts0 =>
        rw [h2] at h
        simp only [Except.ok.injEq] at h
        subst h
        rcases List.mem_cons.mp ht with rfl | ht2
        · exact ⟨c, h1⟩
        · exact ih ts0 h2 t ht2

theorem merge_left_mem (mt : List ChainMapRow) (resis : List ResIRow) :
    ∀ o ∈ merge_left mt resis, ∃ m ∈ mt, o.pdb_i = m.pdb_i ∧ o.target_i = m.target_i := by
  intro o ho
  unfold merge_left at ho
  obtain ⟨m, hm, hbranch⟩ := List.mem_flatMap.mp ho
  refine ⟨m, hm, ?_⟩
  split at hbranch
  · rcases List.mem_singleton.mp hbranch with rfl
    exact ⟨rfl, rfl⟩
  · obtain ⟨r, _, hmk⟩ := List.mem_map.mp hbranch
    rw [← hmk]
    exact ⟨rfl, rfl⟩

/-- Claim C1: every row of the table returned by
`remap_pdb_seq_to_target_seq` has both indices defined: the per-chain
filters discard the rows where the alignment left either index
undefined before the final left join, and the join only extends the
surviving rows. -/
theorem remap_pdb_no_missing_indices
    (localds : List Char → List Char → List (List Char × List Char))
    (residues : List RawResidue) (chain_list : List (List Char))
    (targetContents : List Char) (t : List RemapRow)
    (h : remap_pdb_seq_to_target_seq localds residues chain_list targetContents = .ok t) :
    ∀ row ∈ t, row.pdb_i.isSome = true ∧ row.target_i.isSome = true := by
  unfold remap_pdb_seq_to_target_seq at h
  cases hh : (fa_to_pd targetContents).head? with
  | none =>
    rw [hh] at h
    exact absurd h (by simp)
  | some rec0 =>
    rw [hh] at h
    dsimp only at h
    cases hex : extract_residues residues with
    | error e =>
      rw [hex] at h
      exact absurd h (by simp)
    | ok rows =>
      rw [hex] at h
      dsimp only at h
      by_cases hrows : rows = []
      · rw [if_pos hrows] at h
        exact absurd h (by simp)
      · rw [if_neg hrows] at h
        cases hct : chain_tables localds
            (assign_pdb_i (rows.filter (fun r => chain_list.contains r.chain)))
            rec0.seq chain_list with
        | error e =>
          rw [hct] at h
          exact absurd h (by simp)
        | ok ts =>
          rw [hct] at h
          dsimp only at h
          by_cases hcl : chain_list = []
          · rw [if_pos hcl] at h
            exact absurd h (by simp)
          · rw [if_neg hcl] at h
            simp only [Except.ok.injEq] at h
            subst h
            intro row hrow
            obtain ⟨m, hm, hpi, hti⟩ := merge_left_mem _ _ row hrow
            obtain ⟨tt, htt, hmtt⟩ := List.mem_flatten.mp hm
            obtain ⟨c, hc⟩ := chain_tables_mem localds _ rec0.seq chain_list ts hct tt htt
            have hsome := chain_map_table_isSome localds _ rec0.seq c tt hc m hmtt
            rw [hpi, hti]
            exact hsome

/-- Witness for C1: a two-residue chain A mapped onto target MK; the
first output row has both indices defined. -/
theorem remap_pdb_no_missing_indices_witness :
    (RemapRow.mk (some 1) 'M' (some 1) 'M' ['A'] (some ['1'])).pdb_i.isSome = true ∧
    (RemapRow.mk (some 1) 'M' (some 1) 'M' ['A'] (some ['1'])).target_i.isSome = true :=
  remap_pdb_no_missing_indices (fun a b => [(a, b)])
    [⟨true, ['M', 'E', 'T'], 1, [], ['A']⟩, ⟨true, ['L', 'Y', 'S'], 2, [], ['A']⟩]
    [['A']] (write_fa [(['t'], ['M', 'K'])])
    [⟨some 1, 'M', some 1, 'M', ['A'], some ['1']⟩,
     ⟨some 2, 'K', some 2, 'K', ['A'], some ['2']⟩]
    (by decide) (RemapRow.mk (some 1) 'M' (some 1) 'M' ['A'] (some ['1'])) (by decide)

/-- Claim C8: a structure containing an amino-acid residue whose
three-letter code is absent from the lookup table makes
`remap_pdb_seq_to_target_seq` raise (`KeyError`) during extraction; no
partial table is returned. -/
theorem unknown_residue_code_fails
    (localds : List Char → List Char → List (List Char × List Char))
    (residues : List RawResidue) (chain_list : List (List Char))
    (targetContents : List Char)
    (h : ∃ r ∈ residues, r.is_aa = true ∧ protein_letters_3to1 r.resname = none) :
    remap_pdb_seq_to_target_seq localds residues chain_list targetContents =
      Except.error PyErr.keyError := by
  obtain ⟨rec0, hrec⟩ := fa_to_pd_head_exists targetContents
  have hext : extract_residues residues = Except.error PyErr.keyError :=
    extract_residues_from_error residues 0 h
  unfold remap_pdb_seq_to_target_seq
  rw [hrec, hext]

/-- Witness for C8: one residue with the unknown code XYZ. -/
theorem unknown_residue_code_fails_witness :
    protein_letters_3to1 ['X', 'Y', 'Z'] = none ∧
    remap_pdb_seq_to_target_seq (fun a b => [(a, b)])
      [⟨true, ['X', 'Y', 'Z'], 1, [], ['A']⟩] [['A']]
      (write_fa [(['t'], ['M'])]) = Except.error PyErr.keyError :=
  ⟨by decide,
   unknown_residue_code_fails (fun a b => [(a, b)])
     [⟨true, ['X', 'Y', 'Z'], 1, [], ['A']⟩] [['A']]
     (write_fa [(['t'], ['M'])]) (by decide)⟩

theorem assign_pdb_i_aux_chains :
    ∀ (rs : List ResRow) (cnt : List Char → Nat),
      (assign_pdb_i_aux cnt rs).map (fun r => r.chain) = rs.map (fun r => r.chain) := by
  intro rs
  induction rs with
  | nil =>
    intro cnt
    rfl
  | cons r tl ih =>
    intro cnt
    simp only [assign_pdb_i_aux, List.map_cons, ih]

theorem assign_pdb_i_aux_filter_map (c : List Char) :
    ∀ (rs : List ResRow) (cnt : List Char → Nat),
      ((assign_pdb_i_aux cnt rs).filter (fun r => r.chain == c)).map (fun r => r.pdb_i) =
        List.range' (cnt c + 1) ((rs.filter (fun r => r.chain == c)).length) := by
  intro rs
  induction rs with
  | nil =>
    intro cnt
    rfl
  | cons r tl ih =>
    intro cnt
    by_cases hc : r.chain = c
    · subst hc
      simp only [assign_pdb_i_aux, List.filter_cons, beq_self_eq_true, if_true,
        List.map_cons, List.length_cons]
      rw [ih (fun c2 => if c2 = r.chain then cnt r.chain + 1 else cnt c2), List.range'_succ]
      simp
    · have hb : (r.chain == c) = false := by
        simp [hc]
      simp only [assign_pdb_i_aux, List.filter_cons, hb, Bool.false_eq_true, if_false]
      rw [ih (fun c2 => if c2 = r.chain then cnt r.chain + 1 else cnt c2)]
      rw [if_neg (fun hcc => hc hcc.symm)]

/-- Claim C2: the residue table built by `remap_pdb_seq_to_target_seq`
contains only residues whose chain is in the requested chain list, and
within each chain the derived index `pdb_i` runs 1, 2, ..., k with no
skips, ranking the chain's residues in their original parse order (the
rows are kept in parse order, so the j-th row of a chain gets j). -/
theorem resis_chain_filter_contiguous (residues : List RawResidue)
    (chain_list : List (List Char)) (rows : List ResRow)
    (_hok : extract_residues residues = .ok rows) :
    (∀ r ∈ assign_pdb_i (rows.filter (fun r => chain_list.contains r.chain)),
      chain_list.contains r.chain = true) ∧
    (∀ c, ((assign_pdb_i (rows.filter (fun r => chain_list.contains r.chain))).filter
        (fun r => r.chain == c)).map (fun r => r.pdb_i) =
      List.range' 1 (((rows.filter (fun r => chain_list.contains r.chain)).filter
        (fun r => r.chain == c)).length)) := by
  constructor
  · intro r hr
    have hmap : r.chain ∈ (assign_pdb_i
        (rows.filter (fun r => chain_list.contains r.chain))).map (fun r => r.chain) :=
      List.mem_map_of_mem _ hr
    unfold assign_pdb_i at hmap
    rw [assign_pdb_i_aux_chains] at hmap
    obtain ⟨s, hs, hcs⟩ := List.mem_map.mp hmap
    have hcont := (List.mem_filter.mp hs).2
    rw [hcs] at hcont
    exact hcont
  · intro c
    have h := assign_pdb_i_aux_filter_map c
      (rows.filter (fun r => chain_list.contains r.chain)) (fun _ => 0)
    simpa [assign_pdb_i] using h

/-- Witness for C2: two chain-A residues; the first assigned row is in
the requested chain set, and chain A's pdb_i column is the range 1..2. -/
theorem resis_chain_filter_contiguous_witness :
    ([[ 'A' ]].contains (ResIRow.mk 'M' ['1'] ['A'] 0 1).chain = true) ∧
    (((assign_pdb_i (([⟨'M', ['1'], ['A'], 0⟩, ⟨'K', ['2'], ['A'], 1⟩] : List ResRow).filter
        (fun r => [['A']].contains r.chain))).filter (fun r => r.chain == ['A'])).map
      (fun r => r.pdb_i) =
      List.range' 1 (((([⟨'M', ['1'], ['A'], 0⟩, ⟨'K', ['2'], ['A'], 1⟩] : List ResRow).filter
        (fun r => [['A']].contains r.chain)).filter (fun r => r.chain == ['A'])).length)) :=
  ⟨(resis_chain_filter_contiguous
      [⟨true, ['M', 'E', 'T'], 1, [], ['A']⟩, ⟨true, ['L', 'Y', 'S'], 2, [], ['A']⟩]
      [['A']] [⟨'M', ['1'], ['A'], 0⟩, ⟨'K', ['2'], ['A'], 1⟩] (by decide)).1
      (ResIRow.mk 'M' ['1'] ['A'] 0 1) (by decide),
   (resis_chain_filter_contiguous
      [⟨true, ['M', 'E', 'T'], 1, [], ['A']⟩, ⟨true, ['L', 'Y', 'S'], 2, [], ['A']⟩]
      [['A']] [⟨'M', ['1'], ['A'], 0⟩, ⟨'K', ['2'], ['A'], 1⟩] (by decide)).2 ['A']⟩

theorem nodup_keys_of_filter_ranges (l : List ResIRow)
    (h : ∀ c, ((l.filter (fun r => r.chain == c)).map (fun r => r.pdb_i)).Nodup) :
    (l.map (fun r => (r.chain, r.pdb_i))).Nodup := by
  induction l with
  | nil => simp
  | cons r tl ih =>
    simp only [List.map_cons, List.nodup_cons]
    constructor
    · intro hmem
      obtain ⟨s, hs, hkey⟩ := List.mem_map.mp hmem
      have hchain : s.chain = r.chain := congrArg Prod.fst hkey
      have hpd : s.pdb_i = r.pdb_i := congrArg Prod.snd hkey
      have hc := h r.chain
      simp only [List.filter_cons, beq_self_eq_true, if_true, List.map_cons,
        List.nodup_cons] at hc
      apply hc.1
      apply List.mem_map.mpr
      refine ⟨s, List.mem_filter.mpr ⟨hs, by simp [hchain]⟩, hpd⟩
    · apply ih
      intro c
      have hc := h c
      by_cases hrc : r.chain = c
      · subst hrc
        simp only [List.filter_cons, beq_self_eq_true, if_true, List.map_cons,
          List.nodup_cons] at hc
        exact hc.2
      · have hb : (r.chain == c) = false := by
          simp [hrc]
        simpa only [List.filter_cons, hb, Bool.false_eq_true, if_false] using hc

theorem filter_all_eq_key_length_le_one {α β : Type} [DecidableEq β] (l : List α) (f : α → β)
    (hnd : (l.map f).Nodup) (p : α → Bool) (k : β)
    (hall : ∀ x ∈ l.filter p, f x = k) : (l.filter p).length ≤ 1 := by
  have hsub : ((l.filter p).map f).Nodup := ((List.filter_sublist l).map f).nodup hnd
  cases hfil : l.filter p with
  | nil => simp
  | cons a rest =>
    cases rest with
    | nil => simp
    | cons b rest2 =>
      exfalso
      have ha := hall a (by rw [hfil]; exact List.mem_cons_self a (b :: rest2))
      have hb := hall b (by
        rw [hfil]
        exact List.mem_cons_of_mem a (List.mem_cons_self b rest2))
      rw [hfil] at hsub
      simp only [List.map_cons, List.nodup_cons] at hsub
      apply hsub.1
      rw [ha, ← hb]
      exact List.mem_cons_self _ _

theorem merge_left_cons (m : ChainMapRow) (tl : List ChainMapRow) (resis : List ResIRow) :
    merge_left (m :: tl) resis = (match resis.filter (fun r =>
        r.chain == m.chain && some r.pdb_i == m.pdb_i && r.pdb_res == m.pdb_res) with
      | [] => [⟨m.pdb_i, m.pdb_res, m.target_i, m.target_res, m.chain, none⟩]
      | r0 :: rs => (r0 :: rs).map (fun r => ⟨m.pdb_i, m.pdb_res, m.target_i, m.target_res,
          m.chain, some r.pdb_position⟩)) ++ merge_left tl resis := rfl

theorem merge_left_map_eq (resis : List ResIRow) :
    ∀ (mt : List ChainMapRow),
      (∀ m ∈ mt, (resis.filter (fun r =>
        r.chain == m.chain && some r.pdb_i == m.pdb_i && r.pdb_res == m.pdb_res)).length ≤ 1) →
      (merge_left mt resis).map
        (fun o => ChainMapRow.mk o.pdb_i o.pdb_res o.target_i o.target_res o.chain) = mt := by
  intro mt
  induction mt with
  | nil =>
    intro _
    rfl
  | cons m tl ih =>
    intro hle
    have hm := hle m (List.mem_cons_self m tl)
    have htl := ih (fun x hx => hle x (List.mem_cons_of_mem m hx))
    rw [merge_left_cons, List.map_append, htl]
    cases hfil : resis.filter (fun r =>
        r.chain == m.chain && some r.pdb_i == m.pdb_i && r.pdb_res == m.pdb_res) with
    | nil =>
      rfl
    | cons r0 rs =>
      have hrs : rs = [] := by
        rw [hfil] at hm
        simp only [List.length_cons] at hm
        have : rs.length = 0 := by omega
        exact List.length_eq_zero.mp this
      subst hrs
      rfl

/-- Claim C10: the key (chain, pdb_i) is unique over the residue table
`resis` built inside `remap_pdb_seq_to_target_seq`, so the final left
join of the correspondence table onto `resis` matches each
correspondence row to at most one residue entry: projecting the join
output back to the correspondence columns is the identity (no row is
duplicated or lost). -/
theorem resis_join_key_unique (residues : List RawResidue)
    (chain_list : List (List Char)) (rows : List ResRow)
    (_hok : extract_residues residues = .ok rows) :
    ((assign_pdb_i (rows.filter (fun r => chain_list.contains r.chain))).map
      (fun r => (r.chain, r.pdb_i))).Nodup ∧
    ∀ mt : List ChainMapRow,
      (merge_left mt (assign_pdb_i (rows.filter (fun r => chain_list.contains r.chain)))).map
        (fun o => ChainMapRow.mk o.pdb_i o.pdb_res o.target_i o.target_res o.chain) = mt := by
  have hnd : ((assign_pdb_i (rows.filter (fun r => chain_list.contains r.chain))).map
      (fun r => (r.chain, r.pdb_i))).Nodup := by
    apply nodup_keys_of_filter_ranges
    intro c
    have h := assign_pdb_i_aux_filter_map c
      (rows.filter (fun r => chain_list.contains r.chain)) (fun _ => 0)
    unfold assign_pdb_i
    rw [h]
    exact List.nodup_range' _ _ 1 (by simp)
  refine ⟨hnd, ?_⟩
  intro mt
  apply merge_left_map_eq
  intro m _
  cases hpi : m.pdb_i with
  | none =>
    have hfil : (assign_pdb_i (rows.filter (fun r => chain_list.contains r.chain))).filter
        (fun r => r.chain == m.chain && some r.pdb_i == none && r.pdb_res == m.pdb_res) =
        [] := by
      rw [List.filter_eq_nil_iff]
      intro r _
      simp
    rw [hfil]
    simp
  | some k =>
    apply filter_all_eq_key_length_le_one _ (fun r => (r.chain, r.pdb_i)) hnd _ (m.chain, k)
    intro x hx
    have hx2 := (List.mem_filter.mp hx).2
    simp only [Bool.and_eq_true, beq_iff_eq, Option.some.injEq] at hx2
    rw [hx2.1.1, hx2.1.2]

/-- Witness for C10: the concrete two-residue chain-A table has unique
(chain, pdb_i) keys, and the join with a one-row correspondence table
projects back to that table exactly. -/
theorem resis_join_key_unique_witness :
    ((assign_pdb_i (([⟨'M', ['1'], ['A'], 0⟩, ⟨'K', ['2'], ['A'], 1⟩] : List ResRow).filter
      (fun r => [['A']].contains r.chain))).map (fun r => (r.chain, r.pdb_i))).Nodup ∧
    (merge_left [⟨some 1, 'M', some 1, 'M', ['A']⟩]
        (assign_pdb_i (([⟨'M', ['1'], ['A'], 0⟩, ⟨'K', ['2'], ['A'], 1⟩] : List ResRow).filter
          (fun r => [['A']].contains r.chain)))).map
      (fun o => ChainMapRow.mk o.pdb_i o.pdb_res o.target_i o.target_res o.chain) =
      [⟨some 1, 'M', some 1, 'M', ['A']⟩] :=
  ⟨(resis_join_key_unique
      [⟨true, ['M', 'E', 'T'], 1, [], ['A']⟩, ⟨true, ['L', 'Y', 'S'], 2, [], ['A']⟩]
      [['A']] [⟨'M', ['1'], ['A'], 0⟩, ⟨'K', ['2'], ['A'], 1⟩] (by decide)).1,
   (resis_join_key_unique
      [⟨true, ['M', 'E', 'T'], 1, [], ['A']⟩, ⟨true, ['L', 'Y', 'S'], 2, [], ['A']⟩]
      [['A']] [⟨'M', ['1'], ['A'], 0⟩, ⟨'K', ['2'], ['A'], 1⟩] (by decide)).2
      [⟨some 1, 'M', some 1, 'M', ['A']⟩]⟩

/-! ### Annotation-remap lemmas (claim C4) -/

theorem struct_assign_map_fst (rows : List StructRow) :
    (struct_assign rows).map Prod.fst = rows := by
  unfold struct_assign
  rw [List.map_map]
  exact List.enum_map_snd rows

theorem struct_flatMap_proj (map_table : List MapTableRow)
    (hnd : (map_table.map (fun m => (m.chain, m.pdb_i, m.pdb_res))).Nodup) :
    ∀ (dfi : List (StructRow × Nat)),
      (dfi.flatMap (fun p =>
        match map_table.filter (fun m =>
          m.chain == p.1.chain && m.pdb_i == p.2 && m.pdb_res == p.1.wt) with
        | [] => [StructOutRow.mk p.1.chain p.1.i p.1.wt p.1.payload none none]
        | m0 :: ms => (m0 :: ms).map (fun m => StructOutRow.mk p.1.chain p.1.i p.1.wt
            p.1.payload (some m.target_i) (some m.target_res)))).map
        (fun o => (o.chain, o.pdb_numbering, o.pdb_res, o.payload)) =
      dfi.map (fun p => (p.1.chain, p.1.i, p.1.wt, p.1.payload)) := by
  intro dfi
  induction dfi with
  | nil => rfl
  | cons p tl ih =>
    rw [List.flatMap_cons, List.map_append, ih]
    have hle : (map_table.filter (fun m =>
        m.chain == p.1.chain && m.pdb_i == p.2 && m.pdb_res == p.1.wt)).length ≤ 1 := by
      apply filter_all_eq_key_length_le_one _ _ hnd _ (p.1.chain, p.2, p.1.wt)
      intro x hx
      have hx2 := (List.mem_filter.mp hx).2
      simp only [Bool.and_eq_true, beq_iff_eq] at hx2
      rw [hx2.1.1, hx2.1.2, hx2.2]
    cases hfil : map_table.filter (fun m =>
        m.chain == p.1.chain && m.pdb_i == p.2 && m.pdb_res == p.1.wt) with
    | nil => rfl
    | cons m0 ms =>
      have hms : ms = [] := by
        rw [hfil] at hle
        simp only [List.length_cons] at hle
        exact List.length_eq_zero.mp (by omega)
      subst hms
      rfl

theorem struct_flatMap_mem (map_table : List MapTableRow)
    (dfi : List (StructRow × Nat)) (p : StructRow × Nat) (hp : p ∈ dfi) :
    ∃ o ∈ dfi.flatMap (fun p =>
        match map_table.filter (fun m =>
          m.chain == p.1.chain && m.pdb_i == p.2 && m.pdb_res == p.1.wt) with
        | [] => [StructOutRow.mk p.1.chain p.1.i p.1.wt p.1.payload none none]
        | m0 :: ms => (m0 :: ms).map (fun m => StructOutRow.mk p.1.chain p.1.i p.1.wt
            p.1.payload (some m.target_i) (some m.target_res))),
      o.chain = p.1.chain ∧ o.pdb_numbering = p.1.i ∧ o.pdb_res = p.1.wt ∧
        o.payload = p.1.payload := by
  cases hfil : map_table.filter (fun m =>
      m.chain == p.1.chain && m.pdb_i == p.2 && m.pdb_res == p.1.wt) with
  | nil =>
    refine ⟨StructOutRow.mk p.1.chain p.1.i p.1.wt p.1.payload none none,
      ?_, rfl, rfl, rfl, rfl⟩
    apply List.mem_flatMap.mpr
    refine ⟨p, hp, ?_⟩
    rw [hfil]
    exact List.mem_singleton.mpr rfl
  | cons m0 ms =>
    refine ⟨StructOutRow.mk p.1.chain p.1.i p.1.wt p.1.payload (some m0.target_i)
      (some m0.target_res), ?_, rfl, rfl, rfl, rfl⟩
    apply List.mem_flatMap.mpr
    refine ⟨p, hp, ?_⟩
    rw [hfil]
    exact List.mem_map.mpr ⟨m0, List.mem_cons_self m0 ms, rfl⟩

theorem struct_flatMap_fields (map_table : List MapTableRow)
    (dfi : List (StructRow × Nat)) (o : StructOutRow)
    (ho : o ∈ dfi.flatMap (fun p =>
        match map_table.filter (fun m =>
          m.chain == p.1.chain && m.pdb_i == p.2 && m.pdb_res == p.1.wt) with
        | [] => [StructOutRow.mk p.1.chain p.1.i p.1.wt p.1.payload none none]
        | m0 :: ms => (m0 :: ms).map (fun m => StructOutRow.mk p.1.chain p.1.i p.1.wt
            p.1.payload (some m.target_i) (some m.target_res)))) :
    (o.i = none ∧ o.wt = none) ∨
    ∃ m ∈ map_table, m.chain = o.chain ∧ m.pdb_res = o.pdb_res ∧
      o.i = some m.target_i ∧ o.wt = some m.target_res := by
  obtain ⟨p, hp, hbr⟩ := List.mem_flatMap.mp ho
  cases hfil : map_table.filter (fun m =>
      m.chain == p.1.chain && m.pdb_i == p.2 && m.pdb_res == p.1.wt) with
  | nil =>
    rw [hfil] at hbr
    rcases List.mem_singleton.mp hbr with rfl
    exact Or.inl ⟨rfl, rfl⟩
  | cons m0 ms =>
    rw [hfil] at hbr
    obtain ⟨m, hm, hmk⟩ := List.mem_map.mp hbr
    have hmem : m ∈ map_table.filter (fun m =>
        m.chain == p.1.chain && m.pdb_i == p.2 && m.pdb_res == p.1.wt) := by
      rw [hfil]
      exact hm
    have hkey := (List.mem_filter.mp hmem).2
    simp only [Bool.and_eq_true, beq_iff_eq] at hkey
    refine Or.inr ⟨m, (List.mem_filter.mp hmem).1, ?_, ?_, ?_, ?_⟩
    · rw [← hmk]
      exact hkey.1.1
    · rw [← hmk]
      exact hkey.2
    · rw [← hmk]
    · rw [← hmk]

/-- Counterexample to claim C4 as stated: with a mapping table holding
two rows with the same join key (chain A, pdb_i 1, residue M), the
single matching annotation row appears twice in the output, not exactly
once. -/
theorem remap_struct_df_cex :
    ([(⟨['A'], 1, 'M', ['x']⟩ : StructRow)].length = 1) ∧
    (remap_struct_df_to_target_seq [⟨['A'], 1, 'M', ['x']⟩] [['A']]
      [⟨['A'], 1, 'M', 5, 'M'⟩, ⟨['A'], 1, 'M', 6, 'V'⟩]).length = 2 := by
  decide

/-- Claim C4, amended: remap_struct_df_to_target_seq never drops input
rows: every annotation row of a requested chain appears in the output at
least once; when the mapping table's join keys (chain, pdb_i, pdb_res)
are unique (as they are for tables produced by the remapping pipeline)
every such row appears exactly once, in order; and every output row
either carries null target fields (no match) or the target fields of a
matching mapping row.  (As stated the claim fails only when the mapping
table has duplicate join keys, in which case a matched row is
duplicated.) -/
theorem remap_struct_df_preserves_rows (struct_df : List StructRow)
    (chainlist : List (List Char)) (map_table : List MapTableRow) :
    (∀ r ∈ struct_df.filter (fun r => chainlist.contains r.chain),
      ∃ o ∈ remap_struct_df_to_target_seq struct_df chainlist map_table,
        o.chain = r.chain ∧ o.pdb_numbering = r.i ∧ o.pdb_res = r.wt ∧
          o.payload = r.payload) ∧
    ((map_table.map (fun m => (m.chain, m.pdb_i, m.pdb_res))).Nodup →
      (remap_struct_df_to_target_seq struct_df chainlist map_table).map
        (fun o => (o.chain, o.pdb_numbering, o.pdb_res, o.payload)) =
      (struct_df.filter (fun r => chainlist.contains r.chain)).map
        (fun r => (r.chain, r.i, r.wt, r.payload))) ∧
    (∀ o ∈ remap_struct_df_to_target_seq struct_df chainlist map_table,
      (o.i = none ∧ o.wt = none) ∨
      ∃ m ∈ map_table, m.chain = o.chain ∧ m.pdb_res = o.pdb_res ∧
        o.i = some m.target_i ∧ o.wt = some m.target_res) := by
  refine ⟨?_, ?_, ?_⟩
  · intro r hr
    have hr2 : r ∈ (struct_assign (struct_df.filter
        (fun r => chainlist.contains r.chain))).map Prod.fst := by
      rw [struct_assign_map_fst]
      exact hr
    obtain ⟨p, hp, hfst⟩ := List.mem_map.mp hr2
    obtain ⟨o, ho, h1, h2, h3, h4⟩ := struct_flatMap_mem map_table _ p hp
    exact ⟨o, ho, by rw [h1, hfst], by rw [h2, hfst], by rw [h3, hfst], by rw [h4, hfst]⟩
  · intro hnd
    unfold remap_struct_df_to_target_seq
    rw [struct_flatMap_proj map_table hnd]
    have := struct_assign_map_fst (struct_df.filter (fun r => chainlist.contains r.chain))
    calc (struct_assign (struct_df.filter (fun r => chainlist.contains r.chain))).map
          (fun p => (p.1.chain, p.1.i, p.1.wt, p.1.payload))
        = ((struct_assign (struct_df.filter (fun r => chainlist.contains r.chain))).map
            Prod.fst).map (fun r => (r.chain, r.i, r.wt, r.payload)) := by
          rw [List.map_map]
          rfl
      _ = (struct_df.filter (fun r => chainlist.contains r.chain)).map
            (fun r => (r.chain, r.i, r.wt, r.payload)) := by
          rw [this]
  · intro o ho
    exact struct_flatMap_fields map_table _ o ho

/-- Witness for C4: with a unique-keyed one-row mapping table, the
two-row chain-A annotation table is reproduced exactly (projected to its
own columns) by the remap output. -/
theorem remap_struct_df_preserves_rows_witness :
    (remap_struct_df_to_target_seq
        [⟨['A'], 1, 'M', ['x']⟩, ⟨['A'], 2, 'K', ['y']⟩, ⟨['B'], 1, 'W', ['z']⟩]
        [['A']] [⟨['A'], 1, 'M', 5, 'M'⟩]).map
      (fun o => (o.chain, o.pdb_numbering, o.pdb_res, o.payload)) =
    (([⟨['A'], 1, 'M', ['x']⟩, ⟨['A'], 2, 'K', ['y']⟩, ⟨['B'], 1, 'W', ['z']⟩] :
        List StructRow).filter (fun r => [['A']].contains r.chain)).map
      (fun r => (r.chain, r.i, r.wt, r.payload)) :=
  (remap_struct_df_preserves_rows
    [⟨['A'], 1, 'M', ['x']⟩, ⟨['A'], 2, 'K', ['y']⟩, ⟨['B'], 1, 'W', ['z']⟩]
    [['A']] [⟨['A'], 1, 'M', 5, 'M'⟩]).2.1 (by decide)
